import Mathlib

/-!
Shallow embedding of the `pythonic-fp-booleans` library
(`src/pythonic_fp/booleans/subtypable.py`,
`src/pythonic_fp/booleans/subtypes/flavored.py`,
`src/pythonic_fp/booleans/subtypes/true_false.py`)
together with Python's binary-operator dispatch semantics for the
`&`, `|`, `^` operators, and a small-step state model of the
singleton caches (`__new__`/`__init__` interning).
-/

namespace PfpBooleans

/-- Hashable flavor values used as `FBool` cache keys.  The embedding keeps
three representative Python runtime types (`int`, `bool`, `str`) plus the
`NoValue` sentinel so that `isinstance(flavor, type(other_flavor))` checks in
`flavored.py` are faithfully representable. -/
inductive Flavor where
  | fint (n : Int)
  | fbool (b : Bool)
  | fstr (s : String)
  | fno
deriving DecidableEq

/-- The runtime classes relevant to the library: the object root, the integer
root, built-in `bool`, and the boolean hierarchy `SBool`, `FBool`,
`TF_Bool`, `T_Bool`, `F_Bool` (per the class diagram in
`booleans/__init__.py`). -/
inductive PyType where
  | obj
  | int
  | bool
  | sbool
  | fbool
  | tf_bool
  | t_bool
  | f_bool
deriving DecidableEq

/-- Method-resolution chain (self first, up to `object`), matching single
inheritance in the source: `int -> bool`, `int -> SBool`, `SBool -> FBool`,
`SBool -> TF_Bool`, `TF_Bool -> T_Bool`, `TF_Bool -> F_Bool`. -/
def chain : PyType → List PyType
  | .obj => [.obj]
  | .int => [.int, .obj]
  | .bool => [.bool, .int, .obj]
  | .sbool => [.sbool, .int, .obj]
  | .fbool => [.fbool, .sbool, .int, .obj]
  | .tf_bool => [.tf_bool, .sbool, .int, .obj]
  | .t_bool => [.t_bool, .tf_bool, .sbool, .int, .obj]
  | .f_bool => [.f_bool, .tf_bool, .sbool, .int, .obj]

/-- Errors surfaced by the operators: a `TypeError` naming the two operand
types (`unsupported operand type(s)` in the source). -/
inductive PyErr where
  | typeError (a b : PyType)
deriving DecidableEq

/-- Modelled from the spec: `latest_common_ancestor` lives in the external
package `pythonic_fp.gadgets.lca`, which is not part of this repository's
sources.  Spec section 4.1: it returns the most derived type that is an
ancestor of (or equal to) both types, and fails (`TypeError`) when the only
common ancestor is the integer root or the universal object root. -/
def latest_common_ancestor (a b : PyType) : Except PyErr PyType :=
  match (chain a).find? (fun t => (chain b).contains t) with
  | some t => if t = .int ∨ t = .obj then .error (.typeError a b) else .ok t
  | none => .error (.typeError a b)

/-- Values of the boolean hierarchy, by exact class: an `SBool` carries its
truth, an `FBool` carries flavor and truth, and the closed pair has one
truthy (`T_Bool`) and one falsy (`F_Bool`) member. -/
inductive BVal where
  | sbool (t : Bool)
  | fbool (fl : Flavor) (t : Bool)
  | tfTrue
  | tfFalse
deriving DecidableEq

/-- Truth payload of a hierarchy value (its truthiness as an `int`). -/
def BVal.truth : BVal → Bool
  | .sbool t => t
  | .fbool _ t => t
  | .tfTrue => true
  | .tfFalse => false

/-- Exact runtime class of a hierarchy value. -/
def BVal.typeOf : BVal → PyType
  | .sbool _ => .sbool
  | .fbool _ _ => .fbool
  | .tfTrue => .t_bool
  | .tfFalse => .f_bool

/-- Underlying `int` value of a hierarchy value (`0` or `1`). -/
def BVal.ival (v : BVal) : Int := if v.truth then 1 else 0

/-- An operand of a binary operator: a hierarchy value, a plain `bool`, or a
plain `int`. -/
inductive Operand where
  | hv (v : BVal)
  | pb (b : Bool)
  | pi (n : Int)
deriving DecidableEq

/-- Truthiness of an operand. -/
def Operand.truth : Operand → Bool
  | .hv v => v.truth
  | .pb b => b
  | .pi n => n != 0

/-- Runtime class of an operand. -/
def Operand.typeOf : Operand → PyType
  | .hv v => v.typeOf
  | .pb _ => .bool
  | .pi _ => .int

/-- Underlying integer value of an operand. -/
def Operand.ival : Operand → Int
  | .hv v => v.ival
  | .pb b => if b then 1 else 0
  | .pi n => n

/-- The three eager binary logical operators. -/
inductive Op where
  | and
  | or
  | xor
deriving DecidableEq

/-- The standard two-valued Boolean truth table for each operator (this is
the specification side of the truth-table claims, not a translation of the
source). -/
def Op.table : Op → Bool → Bool → Bool
  | .and, a, b => a && b
  | .or, a, b => a || b
  | .xor, a, b => a ^^ b

/-- Calling a hierarchy class with a single truthiness witness, as the
source's operators do in `SBool(base_class(1))` / `SBool(base_class(0))`:
`SBool(w)` picks the truthy/falsy singleton, `TF_Bool(w)` routes to
`T_Bool()`/`F_Bool()`, `T_Bool`/`F_Bool` ignore the witness.  Calling
`FBool` with a single positional argument fails (its `__new__` requires
`flavor` and `witness`), and the non-hierarchy classes are not boolean
constructors in this model. -/
def construct : PyType → Bool → Except PyErr BVal
  | .sbool, w => .ok (.sbool w)
  | .tf_bool, w => .ok (if w then .tfTrue else .tfFalse)
  | .t_bool, _ => .ok .tfTrue
  | .f_bool, _ => .ok .tfFalse
  | t, _ => .error (.typeError t t)

/-- The body shared by `SBool.__and__`, `SBool.__or__`, `SBool.__xor__`
(`subtypable.py` lines 122-133, 138-149, 154-165): take the latest common
ancestor of the two operand types (re-raising its failure as a `TypeError`
naming both types), compute the eager truth with the condition written in
the source, and return `SBool(base_class(1))` or `SBool(base_class(0))` -
note the outer `SBool(...)` call, which interns by the truthiness of the
inner value. -/
def sbool_binop (op : Op) (self : BVal) (other : Operand) : Except PyErr Operand :=
  match latest_common_ancestor self.typeOf other.typeOf with
  | .error _ => .error (.typeError self.typeOf other.typeOf)
  | .ok bc =>
    let w : Bool :=
      match op with
      | .and => self.truth && other.truth
      | .or => self.truth || other.truth
      | .xor => (self.truth && !other.truth) || (other.truth && !self.truth)
    match construct bc w with
    | .error e => .error e
    | .ok inner => .ok (.hv (.sbool inner.truth))

/-- `TF_Bool.__and__` / `__or__` / `__xor__` (`true_false.py` lines 69-72,
77-80, 85-88): no ancestor check, result is `T_Bool()` or `F_Bool()` by the
eager truth of the operands. -/
def tf_binop (op : Op) (self : BVal) (other : Operand) : Operand :=
  let w : Bool :=
    match op with
    | .and => self.truth && other.truth
    | .or => self.truth || other.truth
    | .xor => (self.truth && !other.truth) || (other.truth && !self.truth)
  .hv (if w then .tfTrue else .tfFalse)

/-- `isinstance(f, type(g))` for flavor values: every `int`-flavored value is
an instance of `int`; Python's `bool` is a subclass of `int`, so a
`bool`-flavored value is an instance of both `bool` and `int`; strings and
the `NoValue` sentinel only match themselves. -/
def flavorIsInst : Flavor → Flavor → Bool
  | .fint _, .fint _ => true
  | .fbool _, .fint _ => true
  | .fbool _, .fbool _ => true
  | .fstr _, .fstr _ => true
  | .fno, .fno => true
  | _, _ => false

/-- `FBool.__and__` (`flavored.py` lines 101-112), with explicit fuel for
the `return self & SBool(other)` tail call (which re-enters `FBool.__and__`
itself, since the right operand is then an exact `SBool` and no reflected
method takes priority).  `none` means the fuel ran out, i.e. the call does
not terminate for any finite fuel. -/
def fbool_and : Nat → Flavor → Bool → Operand → Option (Except PyErr Operand)
  | 0, _, _, _ => none
  | fuel + 1, fl, t, other =>
    match other with
    | .hv (.fbool ofl ot) =>
      if flavorIsInst fl ofl then
        some (.ok (.hv (.fbool ofl (t && ot))))
      else if flavorIsInst ofl fl then
        some (.ok (.hv (.fbool fl (t && ot))))
      else
        some (.ok (.hv (.sbool ot)))
    | o => fbool_and fuel fl t (.hv (.sbool o.truth))

/-- `FBool.__or__` (`flavored.py` lines 117-127): both the
unrelated-flavor-types case and the non-`FBool` case fall through to
`return self | SBool(other)`, which re-enters `FBool.__or__`. -/
def fbool_or : Nat → Flavor → Bool → Operand → Option (Except PyErr Operand)
  | 0, _, _, _ => none
  | fuel + 1, fl, t, other =>
    match other with
    | .hv (.fbool ofl ot) =>
      if flavorIsInst fl ofl then
        some (.ok (.hv (.fbool ofl (t || ot))))
      else if flavorIsInst ofl fl then
        some (.ok (.hv (.fbool fl (t || ot))))
      else
        fbool_or fuel fl t (.hv (.sbool ot))
    | o => fbool_or fuel fl t (.hv (.sbool o.truth))

/-- `FBool.__xor__` (`flavored.py` lines 132-142): the first flavor branch
computes a genuine xor, the second branch computes `if self or other`, and
the fall-through is `return self | SBool(other)`, i.e. it calls `__or__`. -/
def fbool_xor (fuel : Nat) (fl : Flavor) (t : Bool) (other : Operand) :
    Option (Except PyErr Operand) :=
  match fuel with
  | 0 => none
  | fuel + 1 =>
    match other with
    | .hv (.fbool ofl ot) =>
      if flavorIsInst fl ofl then
        some (.ok (.hv (.fbool ofl ((t || ot) && !(t && ot)))))
      else if flavorIsInst ofl fl then
        some (.ok (.hv (.fbool fl (t || ot))))
      else
        fbool_or fuel fl t (.hv (.sbool ot))
    | o => fbool_or fuel fl t (.hv (.sbool o.truth))

/-- Bitwise operation on the underlying machine integers, used when a plain
`int`/`bool` left operand handles the operation itself (CPython delegates
`bool.__and__` etc. to the `int` implementation when the operands are not
both `bool`). -/
def bitop : Op → Int → Int → Int
  | .and, m, n => m.land n
  | .or, m, n => m.lor n
  | .xor, m, n => m.xor n

/-- Which implementation of the reflected dunder (`__rand__`, `__ror__`,
`__rxor__`) a class has, for CPython's subclass-priority rule.  `SBool`
defines all three; `FBool` overrides all three; `TF_Bool` overrides only
`__rand__` - its `__ror` and `__rxor` (`true_false.py` lines 82, 90) are
missing the trailing underscores, so the closed pair inherits `SBool`'s
`__ror__`/`__rxor__`. -/
inductive ReflImpl where
  | intR
  | boolR
  | sboolR
  | fboolR
  | tfR
deriving DecidableEq

/-- Reflected-method implementation table per class and operator. -/
def reflImpl : PyType → Op → ReflImpl
  | .int, _ => .intR
  | .obj, _ => .intR
  | .bool, _ => .boolR
  | .sbool, _ => .sboolR
  | .fbool, _ => .fboolR
  | .tf_bool, .and => .tfR
  | .t_bool, .and => .tfR
  | .f_bool, .and => .tfR
  | .tf_bool, _ => .sboolR
  | .t_bool, _ => .sboolR
  | .f_bool, _ => .sboolR

/-- `a` is a proper subclass of `b`. -/
def strictSub (a b : PyType) : Bool :=
  a != b && (chain a).contains b

/-- Invoke the left operand's own `__and__`/`__or__`/`__xor__` (the class is
looked up dynamically on the value): plain `int`/`bool` left operands
compute the bitwise result on the underlying integers; `SBool` uses
`sbool_binop`; `FBool` uses the fueled `fbool_*` methods; the closed-pair
classes use `tf_binop`. -/
def callMethod (fuel : Nat) (op : Op) (a b : Operand) : Option (Except PyErr Operand) :=
  match a with
  | .pi n => some (.ok (.pi (bitop op n b.ival)))
  | .pb x =>
    match b with
    | .pb y => some (.ok (.pb (Op.table op x y)))
    | _ => some (.ok (.pi (bitop op (if x then 1 else 0) b.ival)))
  | .hv (.sbool t) => some (sbool_binop op (.sbool t) b)
  | .hv (.fbool fl t) =>
    match op with
    | .and => fbool_and fuel fl t b
    | .or => fbool_or fuel fl t b
    | .xor => fbool_xor fuel fl t b
  | .hv .tfTrue => some (.ok (tf_binop op .tfTrue b))
  | .hv .tfFalse => some (.ok (tf_binop op .tfFalse b))

/-- Python's binary-operator dispatch for `a op b`: when the right operand's
class is a proper subclass of the left's and overrides the reflected dunder,
the reflected method runs first (none of the methods in this hierarchy ever
return `NotImplemented`, so no further fallback occurs).  `SBool.__rand__`,
`SBool.__ror__` and `SBool.__rxor__` all execute `return self.__and__(other)`
(`subtypable.py` lines 135-136, 151-152, 167-168), as does
`TF_Bool.__rand__`; `FBool`'s reflected methods re-dispatch the full
operator (`self & other`, `self | other`, `self ^ other`). -/
def dispatch : Nat → Op → Operand → Operand → Option (Except PyErr Operand)
  | 0, _, _, _ => none
  | fuel + 1, op, a, b =>
    if strictSub b.typeOf a.typeOf && (reflImpl b.typeOf op != reflImpl a.typeOf op) then
      match reflImpl b.typeOf op with
      | .sboolR => callMethod fuel .and b a
      | .tfR => callMethod fuel .and b a
      | .fboolR => dispatch fuel op b a
      | _ => callMethod fuel op a b
    else
      callMethod fuel op a b

/-- The closed-pair member of the given truthiness. -/
def tfOf (b : Bool) : BVal := if b then .tfTrue else .tfFalse

lemma xor_cond_eq (a b : Bool) : ((a && !b) || (b && !a)) = (a ^^ b) := by
  cases a <;> cases b <;> rfl

lemma fbool_and_sbool_none (fuel : Nat) (fl : Flavor) (t tb : Bool) :
    fbool_and fuel fl t (.hv (.sbool tb)) = none := by
  induction fuel with
  | zero => rfl
  | succ n ih => simpa [fbool_and, Operand.truth, BVal.truth] using ih

lemma fbool_or_sbool_none (fuel : Nat) (fl : Flavor) (t tb : Bool) :
    fbool_or fuel fl t (.hv (.sbool tb)) = none := by
  induction fuel with
  | zero => rfl
  | succ n ih => simpa [fbool_or, Operand.truth, BVal.truth] using ih

lemma fbool_xor_sbool_none (fuel : Nat) (fl : Flavor) (t tb : Bool) :
    fbool_xor fuel fl t (.hv (.sbool tb)) = none := by
  cases fuel with
  | zero => rfl
  | succ n =>
    simp [fbool_xor, Operand.truth, BVal.truth, fbool_or_sbool_none]

/-- C1: evaluation of the code at the failing input `0 | ALWAYS`.  Because
`T_Bool` is a proper `int` subclass whose inherited `SBool.__ror__` differs
from `int.__ror__`, the reflected method runs first - and `SBool.__ror__`
executes `self.__and__(other)`, so the expression returns the falsy
`NEVER_EVER` singleton, while the standard two-valued `or` truth table
requires a truthy result. -/
theorem c1_reflected_or_is_and :
    dispatch 5 .or (.pi 0) (.hv .tfTrue) = some (.ok (.hv .tfFalse)) ∧
      BVal.tfFalse.truth ≠ Op.table .or (Operand.pi 0).truth BVal.tfTrue.truth := by
  constructor
  · rfl
  · decide

/-- C2 counterexample: `ALWAYS & True` (a closed-pair member combined with a
plain `bool`) does not raise - `TF_Bool.__and__` performs no ancestor check
and returns the `T_Bool` singleton. -/
theorem c2_closed_pair_never_raises :
    dispatch 5 .and (.hv .tfTrue) (.pb true) = some (.ok (.hv .tfTrue)) := by
  rfl

/-- C2 amended: a left operand of exact type `SBool` combined with a plain
`bool` or plain `int` raises the `TypeError` naming the two operand types,
for all three operators, and never returns a coerced result; the closed-pair
members instead combine with any plain `bool`/`int` by truthiness without
raising (and `FBool` operands do not terminate at all, see the C5 theorem). -/
theorem c2_amended (fuel : Nat) (op : Op) (t b x : Bool) (n : Int) :
    dispatch (fuel + 1) op (.hv (.sbool t)) (.pb b) =
        some (.error (.typeError .sbool .bool)) ∧
      dispatch (fuel + 1) op (.hv (.sbool t)) (.pi n) =
        some (.error (.typeError .sbool .int)) ∧
      dispatch (fuel + 1) op (.hv (tfOf x)) (.pb b) =
        some (.ok (.hv (tfOf (Op.table op x b)))) ∧
      dispatch (fuel + 1) op (.hv (tfOf x)) (.pi n) =
        some (.ok (.hv (tfOf (Op.table op x (n != 0))))) := by
  refine ⟨?_, ?_, ?_, ?_⟩ <;>
    cases op <;> cases x <;> cases t <;> cases b <;>
      simp [dispatch, callMethod, sbool_binop, tf_binop, tfOf, strictSub, reflImpl,
        latest_common_ancestor, chain, construct, Operand.truth, Operand.typeOf,
        BVal.truth, BVal.typeOf, Op.table, Bool.xor_comm]

/-- C3: evaluation of the code at the failing input
`truthy('x') & falsy('y')`.  The flavors differ but have the same runtime
type (`str`), so `isinstance(self._flavor, type(other._flavor))` is true and
`FBool.__and__` returns the flavored singleton `FBool('y', False)` - the
flavor is kept (taken from the right operand) instead of falling back to the
plain base falsy singleton the claim (and `tests/test_typing.py`) require. -/
theorem c3_different_flavors_not_dropped :
    dispatch 5 .and (.hv (.fbool (.fstr "x") true)) (.hv (.fbool (.fstr "y") false)) =
        some (.ok (.hv (.fbool (.fstr "y") false))) ∧
      (BVal.fbool (.fstr "y") false).typeOf ≠ PyType.sbool := by
  constructor
  · rfl
  · decide

/-- C4 counterexample: `ALWAYS & NEVER_EVER` terminates and returns the
`F_Bool` singleton, whose exact type `F_Bool` is not the most specific
common ancestor `TF_Bool` computed by the ancestor resolver. -/
theorem c4_closed_pair_not_ancestor_typed :
    dispatch 5 .and (.hv .tfTrue) (.hv .tfFalse) = some (.ok (.hv .tfFalse)) ∧
      latest_common_ancestor .t_bool .f_bool = .ok .tf_bool ∧
      BVal.tfFalse.typeOf ≠ PyType.tf_bool := by
  exact ⟨rfl, rfl, by decide⟩

/-- C4 amended: ancestor-type promotion holds when the left operand has
exact type `SBool` and the right operand is a closed-pair member, for `|`
and `^` (whose reflected methods the subtypes do not override): the result
is the plain `SBool` singleton of the correct truth, and `SBool` is indeed
the resolver's most specific common ancestor.  The closed pair itself
instead always returns its terminal `T_Bool`/`F_Bool` singletons (proper
subtypes of the common ancestor `TF_Bool`); `&` with an `SBool` left operand
is hijacked by `TF_Bool.__rand__` and returns a closed-pair singleton as
well; and combining an `FBool` with a plain base value does not terminate
(see the C5 theorem). -/
theorem c4_amended (fuel : Nat) (t x : Bool) :
    dispatch (fuel + 1) .or (.hv (.sbool t)) (.hv (tfOf x)) =
        some (.ok (.hv (.sbool (t || x)))) ∧
      dispatch (fuel + 1) .xor (.hv (.sbool t)) (.hv (tfOf x)) =
        some (.ok (.hv (.sbool (t ^^ x)))) ∧
      latest_common_ancestor .sbool (tfOf x).typeOf = .ok .sbool ∧
      (∀ (op : Op) (y : Bool),
        dispatch (fuel + 1) op (.hv (tfOf x)) (.hv (tfOf y)) =
          some (.ok (.hv (tfOf (Op.table op x y)))) ∧
        dispatch (fuel + 1) .and (.hv (.sbool t)) (.hv (tfOf y)) =
          some (.ok (.hv (tfOf (t && y))))) := by
  refine ⟨?_, ?_, ?_, fun op y => ⟨?_, ?_⟩⟩
  · cases x <;> cases t <;> rfl
  · cases x <;> cases t <;> rfl
  · cases x <;> rfl
  · cases op <;> cases x <;> cases y <;> rfl
  · cases t <;> cases y <;> rfl

/-- C5: for every `FBool` left operand and plain base `SBool` right operand,
all three operators fail to terminate for any amount of fuel:
`FBool.__and__`/`__or__`/`__xor__` fall through to
`self & SBool(other)` / `self | SBool(other)`, which re-enters the same
method with an exact-`SBool` right operand forever. -/
theorem c5_fbool_sbool_ops_diverge (fuel : Nat) (op : Op) (fl : Flavor) (t tb : Bool) :
    dispatch fuel op (.hv (.fbool fl t)) (.hv (.sbool tb)) = none := by
  cases fuel with
  | zero => rfl
  | succ n =>
    cases op <;>
      simp [dispatch, callMethod, strictSub, reflImpl, chain, Operand.typeOf, BVal.typeOf,
        fbool_and_sbool_none, fbool_or_sbool_none, fbool_xor_sbool_none]

/-- A heap object: identity, exact class, underlying `int` value, and the
`_flavor` attribute (absent until first assigned by an `__init__`). -/
structure Obj where
  id : Nat
  cls : PyType
  ival : Int
  flavorAttr : Option Flavor
deriving DecidableEq

/-- Process state: allocation counter, heap, and the singleton caches
declared by each class - `SBool._truthy`/`_falsy` (`subtypable.py` lines
67-70), `FBool._truthy`/`_falsy` dictionaries keyed by flavor
(`flavored.py` lines 60-63), `T_Bool._truthy` and `F_Bool._falsy`
(`true_false.py` lines 98, 125). -/
structure St where
  next : Nat
  objs : List Obj
  sbTruthy : Option Nat
  sbFalsy : Option Nat
  fbTruthy : List (Flavor × Nat)
  fbFalsy : List (Flavor × Nat)
  tbSlot : Option Nat
  fbSlot : Option Nat
deriving DecidableEq

/-- The initial state: nothing allocated, all caches empty. -/
def initSt : St := ⟨0, [], none, none, [], [], none, none⟩

/-- Heap lookup by object identity. -/
def getObj : List Obj → Nat → Option Obj
  | [], _ => none
  | o :: r, i => if o.id = i then some o else getObj r i

/-- Assignment `obj._flavor = fl` to the object with the given identity. -/
def setFl : List Obj → Nat → Flavor → List Obj
  | [], _, _ => []
  | o :: r, i, fl =>
    (if o.id = i then { o with flavorAttr := some fl } else o) :: setFl r i fl

/-- Dictionary lookup in a flavor-keyed cache. -/
def dlook : List (Flavor × Nat) → Flavor → Option Nat
  | [], _ => none
  | (a, j) :: r, fl => if a = fl then some j else dlook r fl

/-- `SBool.__new__` (`subtypable.py` lines 78-106): return the cached
truthy/falsy singleton, creating it on first request. -/
def sboolNew (st : St) (w : Bool) : St × Nat :=
  if w then
    match st.sbTruthy with
    | some i => (st, i)
    | none =>
      ({ st with next := st.next + 1,
                 objs := ⟨st.next, .sbool, 1, none⟩ :: st.objs,
                 sbTruthy := some st.next }, st.next)
  else
    match st.sbFalsy with
    | some i => (st, i)
    | none =>
      ({ st with next := st.next + 1,
                 objs := ⟨st.next, .sbool, 0, none⟩ :: st.objs,
                 sbFalsy := some st.next }, st.next)

/-- A full `SBool(witness, flavor)` call: `__new__` followed by
`SBool.__init__` (`subtypable.py` lines 108-109), which unconditionally
assigns `self._flavor = flavor` on the returned (possibly cached) object. -/
def sboolCall (st : St) (w : Bool) (fl : Flavor) : St × Nat :=
  let p := sboolNew st w
  ({ p.1 with objs := setFl p.1.objs p.2 fl }, p.2)

/-- `FBool.__new__` (`flavored.py` lines 66-84): per-flavor dictionaries,
inserting a fresh instance on first request for a flavor. -/
def fboolNew (st : St) (fl : Flavor) (w : Bool) : St × Nat :=
  if w then
    match dlook st.fbTruthy fl with
    | some i => (st, i)
    | none =>
      ({ st with next := st.next + 1,
                 objs := ⟨st.next, .fbool, 1, none⟩ :: st.objs,
                 fbTruthy := (fl, st.next) :: st.fbTruthy }, st.next)
  else
    match dlook st.fbFalsy fl with
    | some i => (st, i)
    | none =>
      ({ st with next := st.next + 1,
                 objs := ⟨st.next, .fbool, 0, none⟩ :: st.objs,
                 fbFalsy := (fl, st.next) :: st.fbFalsy }, st.next)

/-- A full `FBool(flavor, witness)` call: `__new__` followed by
`FBool.__init__` (`flavored.py` lines 86-88), which assigns `_flavor` only
when the attribute is not yet present (`hasattr` guard). -/
def fboolCall (st : St) (fl : Flavor) (w : Bool) : St × Nat :=
  match getObj (fboolNew st fl w).1.objs (fboolNew st fl w).2 with
  | some o =>
    if o.flavorAttr.isNone then
      ({ (fboolNew st fl w).1 with
           objs := setFl (fboolNew st fl w).1.objs (fboolNew st fl w).2 fl },
        (fboolNew st fl w).2)
    else fboolNew st fl w
  | none => fboolNew st fl w

/-- `T_Bool.__new__` (`true_false.py` lines 101-115): argument-independent
truthy singleton. -/
def t_boolNew (st : St) : St × Nat :=
  match st.tbSlot with
  | some i => (st, i)
  | none =>
    ({ st with next := st.next + 1,
               objs := ⟨st.next, .t_bool, 1, none⟩ :: st.objs,
               tbSlot := some st.next }, st.next)

/-- A full `T_Bool(witness, flavor)` call: both arguments are ignored by
`__new__`, but the inherited `SBool.__init__` still assigns
`self._flavor = flavor` on the singleton. -/
def t_boolCall (st : St) (_w : Bool) (fl : Flavor) : St × Nat :=
  let p := t_boolNew st
  ({ p.1 with objs := setFl p.1.objs p.2 fl }, p.2)

/-- `F_Bool.__new__` (`true_false.py` lines 128-140): argument-independent
falsy singleton. -/
def f_boolNew (st : St) : St × Nat :=
  match st.fbSlot with
  | some i => (st, i)
  | none =>
    ({ st with next := st.next + 1,
               objs := ⟨st.next, .f_bool, 0, none⟩ :: st.objs,
               fbSlot := some st.next }, st.next)

/-- A full `F_Bool(witness, flavor)` call, with the inherited
`SBool.__init__` flavor assignment. -/
def f_boolCall (st : St) (_w : Bool) (fl : Flavor) : St × Nat :=
  let p := f_boolNew st
  ({ p.1 with objs := setFl p.1.objs p.2 fl }, p.2)

/-- A full `TF_Bool(witness, flavor)` call (`true_false.py` lines 47-57):
`__new__` routes to a complete `T_Bool()` or `F_Bool()` call (default
arguments), and then the inherited `SBool.__init__` assigns the outer
`flavor` on the returned singleton. -/
def tf_boolCall (st : St) (w : Bool) (fl : Flavor) : St × Nat :=
  let p := if w then t_boolCall st false .fno else f_boolCall st false .fno
  ({ p.1 with objs := setFl p.1.objs p.2 fl }, p.2)

/-- One constructor invocation, with its full argument list. -/
inductive Call where
  | sb (w : Bool) (fl : Flavor)
  | fb (fl : Flavor) (w : Bool)
  | tb (w : Bool) (fl : Flavor)
  | fB (w : Bool) (fl : Flavor)
  | tf (w : Bool) (fl : Flavor)
deriving DecidableEq

/-- Execute one constructor invocation. -/
def run (st : St) : Call → St × Nat
  | .sb w fl => sboolCall st w fl
  | .fb fl w => fboolCall st fl w
  | .tb w fl => t_boolCall st w fl
  | .fB w fl => f_boolCall st w fl
  | .tf w fl => tf_boolCall st w fl

/-- Execute a list of constructor invocations, collecting the returned
object identities. -/
def runTrace : St → List Call → St × List Nat
  | st, [] => (st, [])
  | st, c :: cs =>
    let p := run st c
    let q := runTrace p.1 cs
    (q.1, p.2 :: q.2)

/-- A cache key: which slot of which cache a constructor call resolves to. -/
inductive Key where
  | sb (t : Bool)
  | fb (fl : Flavor) (t : Bool)
  | tb
  | fB
deriving DecidableEq

/-- The cache key a constructor invocation resolves to (for `SBool` the key
is the truth value only - the flavor argument is not part of the key; a
`TF_Bool` call routes to the `T_Bool` or `F_Bool` slot by its witness). -/
def keyOf : Call → Key
  | .sb w _ => .sb w
  | .fb fl w => .fb fl w
  | .tb _ _ => .tb
  | .fB _ _ => .fB
  | .tf w _ => if w then .tb else .fB

/-- Contents of the cache slot for a key. -/
def slotVal (st : St) : Key → Option Nat
  | .sb true => st.sbTruthy
  | .sb false => st.sbFalsy
  | .fb fl true => dlook st.fbTruthy fl
  | .fb fl false => dlook st.fbFalsy fl
  | .tb => st.tbSlot
  | .fB => st.fbSlot

/-- Exact class of the objects cached under a key. -/
def keyCls : Key → PyType
  | .sb _ => .sbool
  | .fb _ _ => .fbool
  | .tb => .t_bool
  | .fB => .f_bool

/-- Underlying `int` value of the objects cached under a key. -/
def keyIval : Key → Int
  | .sb t => if t then 1 else 0
  | .fb _ t => if t then 1 else 0
  | .tb => 1
  | .fB => 0

/-- The key's slot holds identity `i` and the heap object there matches the
key (class, value, and - for `FBool` keys - the stored flavor equal to the
dictionary key). -/
def internedAt (st : St) (k : Key) (i : Nat) : Bool :=
  (slotVal st k == some i) &&
    match getObj st.objs i with
    | some o =>
      (o.cls == keyCls k) && (o.ival == keyIval k) &&
        (match k with
         | .fb fl _ => o.flavorAttr == some fl
         | _ => true)
    | none => false

/-- Heap ids are strictly decreasing and below the bound (so every id is
allocated at most once and the allocation counter is fresh). -/
def wfHeapB : List Obj → Nat → Bool
  | [], _ => true
  | o :: r, n => decide (o.id < n) && wfHeapB r o.id

/-- A singleton slot either is empty or points at an existing object of the
expected class and value. -/
def slotObjOk (objs : List Obj) (s : Option Nat) (c : PyType) (v : Int) : Bool :=
  match s with
  | none => true
  | some i =>
    match getObj objs i with
    | some o => (o.cls == c) && (o.ival == v)
    | none => false

/-- Every dictionary entry points at an existing `FBool` object of the
expected value whose stored flavor equals its dictionary key. -/
def dictOk (objs : List Obj) : List (Flavor × Nat) → Int → Bool
  | [], _ => true
  | (fl, i) :: r, v =>
    (match getObj objs i with
     | some o => (o.cls == .fbool) && (o.ival == v) && (o.flavorAttr == some fl)
     | none => false) && dictOk objs r v

/-- Well-formedness of a process state. -/
def wfB (st : St) : Bool :=
  wfHeapB st.objs st.next &&
    slotObjOk st.objs st.sbTruthy .sbool 1 &&
    slotObjOk st.objs st.sbFalsy .sbool 0 &&
    slotObjOk st.objs st.tbSlot .t_bool 1 &&
    slotObjOk st.objs st.fbSlot .f_bool 0 &&
    dictOk st.objs st.fbTruthy 1 &&
    dictOk st.objs st.fbFalsy 0

lemma getObj_nil (i : Nat) : getObj [] i = none := rfl

lemma getObj_cons (o : Obj) (r : List Obj) (i : Nat) :
    getObj (o :: r) i = if o.id = i then some o else getObj r i := rfl

lemma setFl_cons (o : Obj) (r : List Obj) (j : Nat) (fl : Flavor) :
    setFl (o :: r) j fl =
      (if o.id = j then { o with flavorAttr := some fl } else o) :: setFl r j fl := rfl

lemma getObj_id (l : List Obj) (i : Nat) (o : Obj) (h : getObj l i = some o) :
    o.id = i := by
  induction l with
  | nil => simp [getObj_nil] at h
  | cons hd tl ih =>
    rw [getObj_cons] at h
    by_cases hi : hd.id = i
    · rw [if_pos hi] at h
      cases h
      exact hi
    · rw [if_neg hi] at h
      exact ih h

lemma getObj_setFl (l : List Obj) (j : Nat) (fl : Flavor) (i : Nat) :
    getObj (setFl l j fl) i =
      if i = j then (getObj l i).map (fun o => { o with flavorAttr := some fl })
      else getObj l i := by
  induction l with
  | nil => simp [setFl, getObj_nil]
  | cons hd tl ih =>
    rw [setFl_cons, getObj_cons, getObj_cons]
    by_cases hj : hd.id = j <;> by_cases hi : hd.id = i
    · have hij : i = j := by omega
      simp [hj, hi, hij]
    · have hij : ¬i = j := by omega
      have hji : ¬j = i := by omega
      simp [hj, hi, hij, hji, ih]
    · have hij : ¬i = j := by omega
      simp [hj, hi, hij]
    · simp [hj, hi, ih]

lemma heapLt (l : List Obj) (n : Nat) (i : Nat) (o : Obj)
    (hw : wfHeapB l n = true) (h : getObj l i = some o) : o.id < n := by
  induction l generalizing n with
  | nil => simp [getObj] at h
  | cons hd tl ih =>
    simp only [wfHeapB, Bool.and_eq_true, decide_eq_true_eq] at hw
    by_cases hi : hd.id = i
    · rw [getObj_cons, if_pos hi] at h
      cases h
      exact hw.1
    · rw [getObj_cons, if_neg hi] at h
      exact Nat.lt_trans (ih hd.id hw.2 h) hw.1

lemma wfHeapB_setFl (l : List Obj) (j : Nat) (fl : Flavor) (n : Nat) :
    wfHeapB (setFl l j fl) n = wfHeapB l n := by
  induction l generalizing n with
  | nil => rfl
  | cons hd tl ih =>
    by_cases hj : hd.id = j <;> simp [setFl, wfHeapB, hj, ih]

lemma getObj_cons_of_wf (l : List Obj) (n : Nat) (ob : Obj) (i : Nat) (o : Obj)
    (hw : wfHeapB l n = true) (hid : ob.id = n) (h : getObj l i = some o) :
    getObj (ob :: l) i = some o := by
  have hlt : o.id < n := heapLt l n i o hw h
  have hoi : o.id = i := getObj_id l i o h
  have : ¬ob.id = i := by omega
  simp [getObj, this, h]

lemma slotObjOk_setFl (l : List Obj) (j : Nat) (fl : Flavor) (s : Option Nat)
    (c : PyType) (v : Int) :
    slotObjOk (setFl l j fl) s c v = slotObjOk l s c v := by
  cases s with
  | none => rfl
  | some i =>
    simp only [slotObjOk, getObj_setFl]
    by_cases hij : i = j
    · subst hij
      simp only [if_pos rfl]
      cases getObj l i <;> simp
    · simp [hij]

lemma slotObjOk_cons (l : List Obj) (n : Nat) (ob : Obj) (s : Option Nat)
    (c : PyType) (v : Int) (hw : wfHeapB l n = true) (hid : ob.id = n)
    (h : slotObjOk l s c v = true) : slotObjOk (ob :: l) s c v = true := by
  cases s with
  | none => rfl
  | some i =>
    simp only [slotObjOk] at h ⊢
    cases hg : getObj l i with
    | none => simp [hg] at h
    | some o =>
      rw [getObj_cons_of_wf l n ob i o hw hid hg]
      simpa [hg] using h

lemma dlook_cons (a : Flavor) (j : Nat) (r : List (Flavor × Nat)) (fl : Flavor) :
    dlook ((a, j) :: r) fl = if a = fl then some j else dlook r fl := rfl

lemma dictOk_nil (objs : List Obj) (v : Int) : dictOk objs [] v = true := rfl

lemma dictOk_cons_eq (objs : List Obj) (a : Flavor) (i : Nat)
    (r : List (Flavor × Nat)) (v : Int) :
    dictOk objs ((a, i) :: r) v =
      ((match getObj objs i with
        | some o => (o.cls == .fbool) && (o.ival == v) && (o.flavorAttr == some a)
        | none => false) && dictOk objs r v) := rfl

lemma dictOk_setFl_nonfb (l : List Obj) (j : Nat) (fl : Flavor)
    (d : List (Flavor × Nat)) (v : Int)
    (hnb : ∀ oj, getObj l j = some oj → ¬oj.cls = .fbool)
    (h : dictOk l d v = true) : dictOk (setFl l j fl) d v = true := by
  induction d with
  | nil => rfl
  | cons e r ih =>
    obtain ⟨a, i⟩ := e
    rw [dictOk_cons_eq, Bool.and_eq_true] at h
    rw [dictOk_cons_eq, Bool.and_eq_true]
    refine ⟨?_, ih h.2⟩
    rw [getObj_setFl]
    by_cases hij : i = j
    · subst hij
      have h1 := h.1
      cases hg : getObj l i with
      | none =>
        rw [hg] at h1
        exact absurd h1 (by simp)
      | some o =>
        exfalso
        rw [hg] at h1
        simp only [Bool.and_eq_true, beq_iff_eq] at h1
        exact hnb o hg h1.1.1
    · simp only [if_neg hij]
      exact h.1

lemma dictOk_cons (l : List Obj) (n : Nat) (ob : Obj) (d : List (Flavor × Nat))
    (v : Int) (hw : wfHeapB l n = true) (hid : ob.id = n)
    (h : dictOk l d v = true) : dictOk (ob :: l) d v = true := by
  induction d with
  | nil => rfl
  | cons e r ih =>
    obtain ⟨a, i⟩ := e
    simp only [dictOk, Bool.and_eq_true] at h ⊢
    refine ⟨?_, ih h.2⟩
    cases hg : getObj l i with
    | none => simp [hg] at h
    | some o =>
      rw [getObj_cons_of_wf l n ob i o hw hid hg]
      have := h.1
      simpa [hg] using this

lemma dlook_dictOk (objs : List Obj) (d : List (Flavor × Nat)) (v : Int)
    (fl : Flavor) (j : Nat) (hd : dictOk objs d v = true)
    (hl : dlook d fl = some j) :
    ∃ o, getObj objs j = some o ∧ o.cls = .fbool ∧ o.ival = v ∧
      o.flavorAttr = some fl := by
  induction d with
  | nil => exact absurd hl (by simp [dlook])
  | cons e r ih =>
    obtain ⟨a, i⟩ := e
    rw [dictOk_cons_eq, Bool.and_eq_true] at hd
    by_cases ha : a = fl
    · rw [dlook_cons, if_pos ha] at hl
      injection hl with hij
      subst hij
      have h1 := hd.1
      cases hg : getObj objs i with
      | none =>
        rw [hg] at h1
        exact absurd h1 (by simp)
      | some o =>
        rw [hg] at h1
        simp only [Bool.and_eq_true, beq_iff_eq] at h1
        exact ⟨o, rfl, h1.1.1, h1.1.2, ha ▸ h1.2⟩
    · rw [dlook_cons, if_neg ha] at hl
      exact ih hd.2 hl

lemma runTrace_cons (st : St) (c : Call) (cs : List Call) :
    runTrace st (c :: cs) =
      ((runTrace (run st c).1 cs).1, (run st c).2 :: (runTrace (run st c).1 cs).2) := rfl

lemma runTrace_append_fst (st : St) (as bs : List Call) :
    (runTrace st (as ++ bs)).1 = (runTrace (runTrace st as).1 bs).1 := by
  induction as generalizing st with
  | nil => rfl
  | cons a r ih => simp [runTrace_cons, ih]

/-- The `__new__` part of each constructor invocation (the cache lookup and
possible allocation, without the `__init__` attribute assignment). -/
def runNew (st : St) : Call → St × Nat
  | .sb w _ => sboolNew st w
  | .fb fl w => fboolNew st fl w
  | .tb _ _ => t_boolNew st
  | .fB _ _ => f_boolNew st
  | .tf w _ => if w then t_boolNew st else f_boolNew st

lemma slotVal_objs (st : St) (l : List Obj) (k : Key) :
    slotVal { st with objs := l } k = slotVal st k := by
  cases k with
  | sb t => cases t <;> rfl
  | fb fl t => cases t <;> rfl
  | tb => rfl
  | fB => rfl

lemma fboolCall_objs (st : St) (fl : Flavor) (w : Bool) :
    ∃ l, (fboolCall st fl w).1 = { (fboolNew st fl w).1 with objs := l } ∧
      (fboolCall st fl w).2 = (fboolNew st fl w).2 := by
  cases hg : getObj (fboolNew st fl w).1.objs (fboolNew st fl w).2 with
  | none =>
    exact ⟨(fboolNew st fl w).1.objs, by simp only [fboolCall, hg], by
      simp only [fboolCall, hg]⟩
  | some o =>
    by_cases hn : o.flavorAttr.isNone
    · exact ⟨setFl (fboolNew st fl w).1.objs (fboolNew st fl w).2 fl, by
        simp only [fboolCall, hg, if_pos hn], by simp only [fboolCall, hg, if_pos hn]⟩
    · exact ⟨(fboolNew st fl w).1.objs, by simp only [fboolCall, hg, if_neg hn], by
        simp only [fboolCall, hg, if_neg hn]⟩

lemma run_slots (st : St) (c : Call) (k : Key) :
    slotVal (run st c).1 k = slotVal (runNew st c).1 k ∧
      (run st c).2 = (runNew st c).2 := by
  cases c with
  | sb w fl => exact ⟨slotVal_objs _ _ _, rfl⟩
  | fb fl w =>
    obtain ⟨l, h1, h2⟩ := fboolCall_objs st fl w
    refine ⟨?_, h2⟩
    show slotVal (fboolCall st fl w).1 k = _
    rw [h1, slotVal_objs]
    rfl
  | tb w fl => exact ⟨slotVal_objs _ _ _, rfl⟩
  | fB w fl => exact ⟨slotVal_objs _ _ _, rfl⟩
  | tf w fl =>
    cases w
    · exact ⟨(slotVal_objs _ _ _).trans (slotVal_objs _ _ _), rfl⟩
    · exact ⟨(slotVal_objs _ _ _).trans (slotVal_objs _ _ _), rfl⟩

lemma run_cached (st : St) (c : Call) (i : Nat)
    (h : slotVal st (keyOf c) = some i) : (run st c).2 = i := by
  rw [(run_slots st c (keyOf c)).2]
  cases c with
  | sb w fl =>
    cases w <;> simp_all [runNew, sboolNew, slotVal, keyOf]
  | fb fl w =>
    cases w <;> simp_all [runNew, fboolNew, slotVal, keyOf]
  | tb w fl =>
    simp_all [runNew, t_boolNew, slotVal, keyOf]
  | fB w fl =>
    simp_all [runNew, f_boolNew, slotVal, keyOf]
  | tf w fl =>
    cases w <;> simp_all [runNew, t_boolNew, f_boolNew, slotVal, keyOf]

lemma run_fills (st : St) (c : Call) :
    slotVal (run st c).1 (keyOf c) = some ((run st c).2) := by
  rw [(run_slots st c (keyOf c)).1, (run_slots st c (keyOf c)).2]
  cases c with
  | sb w fl =>
    cases w
    · cases hs : st.sbFalsy <;> simp [runNew, sboolNew, slotVal, keyOf, hs]
    · cases hs : st.sbTruthy <;> simp [runNew, sboolNew, slotVal, keyOf, hs]
  | fb fl w =>
    cases w
    · cases hs : dlook st.fbFalsy fl <;>
        simp [runNew, fboolNew, slotVal, keyOf, hs, dlook_cons]
    · cases hs : dlook st.fbTruthy fl <;>
        simp [runNew, fboolNew, slotVal, keyOf, hs, dlook_cons]
  | tb w fl =>
    cases hs : st.tbSlot <;> simp [runNew, t_boolNew, slotVal, keyOf, hs]
  | fB w fl =>
    cases hs : st.fbSlot <;> simp [runNew, f_boolNew, slotVal, keyOf, hs]
  | tf w fl =>
    cases w
    · cases hs : st.fbSlot <;> simp [runNew, f_boolNew, slotVal, keyOf, hs]
    · cases hs : st.tbSlot <;> simp [runNew, t_boolNew, slotVal, keyOf, hs]

lemma slot_persist (st : St) (c : Call) (k : Key) (i : Nat)
    (h : slotVal st k = some i) : slotVal (run st c).1 k = some i := by
  rw [(run_slots st c k).1]
  cases c with
  | sb w fl =>
    cases k with
    | sb t =>
      cases w <;> cases t <;>
        (cases hs : st.sbTruthy <;> cases hs2 : st.sbFalsy <;>
          simp_all [runNew, sboolNew, slotVal])
    | fb fl2 t =>
      cases w <;> cases t <;>
        (cases hs : st.sbTruthy <;> cases hs2 : st.sbFalsy <;>
          simp_all [runNew, sboolNew, slotVal])
    | tb =>
      cases w <;>
        (cases hs : st.sbTruthy <;> cases hs2 : st.sbFalsy <;>
          simp_all [runNew, sboolNew, slotVal])
    | fB =>
      cases w <;>
        (cases hs : st.sbTruthy <;> cases hs2 : st.sbFalsy <;>
          simp_all [runNew, sboolNew, slotVal])
  | fb fl w =>
    cases k with
    | sb t =>
      cases w <;> cases t <;>
        (cases hs : dlook st.fbTruthy fl <;> cases hs2 : dlook st.fbFalsy fl <;>
          simp_all [runNew, fboolNew, slotVal])
    | fb fl2 t =>
      cases w <;> cases t <;>
        (cases hs : dlook st.fbTruthy fl <;> cases hs2 : dlook st.fbFalsy fl <;>
          simp_all [runNew, fboolNew, slotVal, dlook_cons]) <;>
        (by_cases hfl : fl = fl2
         · subst hfl; simp_all
         · simp [hfl, h])
    | tb =>
      cases w <;>
        (cases hs : dlook st.fbTruthy fl <;> cases hs2 : dlook st.fbFalsy fl <;>
          simp_all [runNew, fboolNew, slotVal])
    | fB =>
      cases w <;>
        (cases hs : dlook st.fbTruthy fl <;> cases hs2 : dlook st.fbFalsy fl <;>
          simp_all [runNew, fboolNew, slotVal])
  | tb w fl =>
    cases k with
    | sb t =>
      cases t <;> (cases hs : st.tbSlot <;> simp_all [runNew, t_boolNew, slotVal])
    | fb fl2 t =>
      cases t <;> (cases hs : st.tbSlot <;> simp_all [runNew, t_boolNew, slotVal])
    | tb => cases hs : st.tbSlot <;> simp_all [runNew, t_boolNew, slotVal]
    | fB => cases hs : st.tbSlot <;> simp_all [runNew, t_boolNew, slotVal]
  | fB w fl =>
    cases k with
    | sb t =>
      cases t <;> (cases hs : st.fbSlot <;> simp_all [runNew, f_boolNew, slotVal])
    | fb fl2 t =>
      cases t <;> (cases hs : st.fbSlot <;> simp_all [runNew, f_boolNew, slotVal])
    | tb => cases hs : st.fbSlot <;> simp_all [runNew, f_boolNew, slotVal]
    | fB => cases hs : st.fbSlot <;> simp_all [runNew, f_boolNew, slotVal]
  | tf w fl =>
    cases k with
    | sb t =>
      cases w <;> cases t <;>
        (cases hs : st.tbSlot <;> cases hs2 : st.fbSlot <;>
          simp_all [runNew, t_boolNew, f_boolNew, slotVal])
    | fb fl2 t =>
      cases w <;> cases t <;>
        (cases hs : st.tbSlot <;> cases hs2 : st.fbSlot <;>
          simp_all [runNew, t_boolNew, f_boolNew, slotVal])
    | tb =>
      cases w <;>
        (cases hs : st.tbSlot <;> cases hs2 : st.fbSlot <;>
          simp_all [runNew, t_boolNew, f_boolNew, slotVal])
    | fB =>
      cases w <;>
        (cases hs : st.tbSlot <;> cases hs2 : st.fbSlot <;>
          simp_all [runNew, t_boolNew, f_boolNew, slotVal])

lemma slot_persist_trace (st : St) (cs : List Call) (k : Key) (i : Nat)
    (h : slotVal st k = some i) : slotVal (runTrace st cs).1 k = some i := by
  induction cs generalizing st with
  | nil => exact h
  | cons c r ih =>
    rw [runTrace_cons]
    exact ih (run st c).1 (slot_persist st c k i h)

/-- Field preservation between two heaps: every object still exists with the
same class and value, and `FBool`-classed objects also keep their stored
flavor. -/
def FP (l l2 : List Obj) : Prop :=
  ∀ i o, getObj l i = some o →
    ∃ o2, getObj l2 i = some o2 ∧ o2.cls = o.cls ∧ o2.ival = o.ival ∧
      (o.cls = .fbool → o2.flavorAttr = o.flavorAttr)

lemma fp_refl (l : List Obj) : FP l l :=
  fun _ o h => ⟨o, h, rfl, rfl, fun _ => rfl⟩

lemma fp_trans (a b c : List Obj) (h1 : FP a b) (h2 : FP b c) : FP a c := by
  intro i o h
  obtain ⟨o2, g2, hc2, hv2, hf2⟩ := h1 i o h
  obtain ⟨o3, g3, hc3, hv3, hf3⟩ := h2 i o2 g2
  exact ⟨o3, g3, hc3.trans hc2, hv3.trans hv2, fun hb =>
    (hf3 (hc2.trans hb)).trans (hf2 hb)⟩

lemma fp_setFl (l : List Obj) (j : Nat) (fl : Flavor)
    (hnb : ∀ oj, getObj l j = some oj → ¬oj.cls = .fbool) :
    FP l (setFl l j fl) := by
  intro i o h
  rw [getObj_setFl]
  by_cases hij : i = j
  · subst hij
    refine ⟨{ o with flavorAttr := some fl }, by rw [h]; simp, rfl, rfl, ?_⟩
    intro hb
    exact absurd hb (hnb o h)
  · exact ⟨o, by rw [if_neg hij]; exact h, rfl, rfl, fun _ => rfl⟩

lemma fp_cons (l : List Obj) (n : Nat) (ob : Obj) (hw : wfHeapB l n = true)
    (hid : ob.id = n) : FP l (ob :: l) := by
  intro i o h
  exact ⟨o, getObj_cons_of_wf l n ob i o hw hid h, rfl, rfl, fun _ => rfl⟩

lemma wfB_iff (st : St) :
    wfB st = true ↔
      (wfHeapB st.objs st.next = true ∧
        slotObjOk st.objs st.sbTruthy .sbool 1 = true ∧
        slotObjOk st.objs st.sbFalsy .sbool 0 = true ∧
        slotObjOk st.objs st.tbSlot .t_bool 1 = true ∧
        slotObjOk st.objs st.fbSlot .f_bool 0 = true ∧
        dictOk st.objs st.fbTruthy 1 = true ∧
        dictOk st.objs st.fbFalsy 0 = true) := by
  simp [wfB, Bool.and_eq_true, and_assoc]

lemma slotObjOk_some (objs : List Obj) (s : Option Nat) (c : PyType) (v : Int)
    (i : Nat) (h : slotObjOk objs s c v = true) (hs : s = some i) :
    ∃ o, getObj objs i = some o ∧ o.cls = c ∧ o.ival = v := by
  subst hs
  simp only [slotObjOk] at h
  cases hg : getObj objs i with
  | none => rw [hg] at h; exact absurd h (by simp)
  | some o =>
    rw [hg] at h
    simp only [Bool.and_eq_true, beq_iff_eq] at h
    exact ⟨o, rfl, h.1, h.2⟩

lemma slotObjOk_of_obj (objs : List Obj) (i : Nat) (o : Obj) (c : PyType)
    (v : Int) (hg : getObj objs i = some o) (hc : o.cls = c) (hv : o.ival = v) :
    slotObjOk objs (some i) c v = true := by
  simp [slotObjOk, hg, hc, hv]

lemma slotObjOk_fp (objs objs2 : List Obj) (s : Option Nat) (c : PyType)
    (v : Int) (hfp : FP objs objs2) (h : slotObjOk objs s c v = true) :
    slotObjOk objs2 s c v = true := by
  cases s with
  | none => rfl
  | some i =>
    obtain ⟨o, hg, hc, hv⟩ := slotObjOk_some objs (some i) c v i h rfl
    obtain ⟨o2, hg2, hc2, hv2, _⟩ := hfp i o hg
    exact slotObjOk_of_obj objs2 i o2 c v hg2 (hc2.trans hc) (hv2.trans hv)

lemma dictOk_fp (objs objs2 : List Obj) (d : List (Flavor × Nat)) (v : Int)
    (hfp : FP objs objs2) (h : dictOk objs d v = true) :
    dictOk objs2 d v = true := by
  induction d with
  | nil => rfl
  | cons e r ih =>
    obtain ⟨a, i⟩ := e
    rw [dictOk_cons_eq, Bool.and_eq_true] at h
    rw [dictOk_cons_eq, Bool.and_eq_true]
    refine ⟨?_, ih h.2⟩
    have h1 := h.1
    cases hg : getObj objs i with
    | none => rw [hg] at h1; exact absurd h1 (by simp)
    | some o =>
      rw [hg] at h1
      simp only [Bool.and_eq_true, beq_iff_eq] at h1
      obtain ⟨o2, hg2, hc2, hv2, hf2⟩ := hfp i o hg
      rw [hg2]
      simp [hc2, h1.1.1, hv2, h1.1.2, hf2 h1.1.1, h1.2]

lemma setFl_wf (st : St) (j : Nat) (fl : Flavor) (hw : wfB st = true)
    (hnb : ∀ oj, getObj st.objs j = some oj → ¬oj.cls = .fbool) :
    wfB { st with objs := setFl st.objs j fl } = true := by
  rw [wfB_iff] at hw ⊢
  obtain ⟨h1, h2, h3, h4, h5, h6, h7⟩ := hw
  have hfp := fp_setFl st.objs j fl hnb
  exact ⟨by simpa [wfHeapB_setFl] using h1,
    slotObjOk_fp _ _ _ _ _ hfp h2, slotObjOk_fp _ _ _ _ _ hfp h3,
    slotObjOk_fp _ _ _ _ _ hfp h4, slotObjOk_fp _ _ _ _ _ hfp h5,
    dictOk_fp _ _ _ _ hfp h6, dictOk_fp _ _ _ _ hfp h7⟩

lemma internedAt_intro (st : St) (k : Key) (i : Nat) (o : Obj)
    (hs : slotVal st k = some i) (hg : getObj st.objs i = some o)
    (hc : o.cls = keyCls k) (hv : o.ival = keyIval k)
    (hf : ∀ fl t, k = .fb fl t → o.flavorAttr = some fl) :
    internedAt st k i = true := by
  cases k with
  | fb fl t => simp [internedAt, hs, hg, hc, hv, keyCls, keyIval, hf fl t rfl]
  | sb t => simp [internedAt, hs, hg, hc, hv, keyCls, keyIval]
  | tb => simp [internedAt, hs, hg, hc, hv, keyCls, keyIval]
  | fB => simp [internedAt, hs, hg, hc, hv, keyCls, keyIval]

lemma internedAt_elim (st : St) (k : Key) (i : Nat)
    (h : internedAt st k i = true) :
    slotVal st k = some i ∧
      ∃ o, getObj st.objs i = some o ∧ o.cls = keyCls k ∧ o.ival = keyIval k ∧
        (∀ fl t, k = .fb fl t → o.flavorAttr = some fl) := by
  simp only [internedAt, Bool.and_eq_true, beq_iff_eq] at h
  refine ⟨h.1, ?_⟩
  have h2 := h.2
  cases hg : getObj st.objs i with
  | none => rw [hg] at h2; exact absurd h2 (by simp)
  | some o =>
    rw [hg] at h2
    cases k with
    | fb fl t =>
      simp only [Bool.and_eq_true, beq_iff_eq] at h2
      exact ⟨o, rfl, h2.1.1, h2.1.2, fun fl2 t2 hk => by cases hk; exact h2.2⟩
    | sb t =>
      simp only [Bool.and_eq_true, beq_iff_eq] at h2
      exact ⟨o, rfl, h2.1.1, h2.1.2, fun fl2 t2 hk => by cases hk⟩
    | tb =>
      simp only [Bool.and_eq_true, beq_iff_eq] at h2
      exact ⟨o, rfl, h2.1.1, h2.1.2, fun fl2 t2 hk => by cases hk⟩
    | fB =>
      simp only [Bool.and_eq_true, beq_iff_eq] at h2
      exact ⟨o, rfl, h2.1.1, h2.1.2, fun fl2 t2 hk => by cases hk⟩

lemma internedAt_of_fp (st st2 : St) (k : Key) (i : Nat)
    (h : internedAt st k i = true) (hslot : slotVal st2 k = some i)
    (hfp : FP st.objs st2.objs) : internedAt st2 k i = true := by
  obtain ⟨-, o, hg, hc, hv, hf⟩ := internedAt_elim st k i h
  obtain ⟨o2, hg2, hc2, hv2, hf2⟩ := hfp i o hg
  refine internedAt_intro st2 k i o2 hslot hg2 (hc2.trans hc) (hv2.trans hv) ?_
  intro fl t hk
  subst hk
  exact (hf2 (by rw [hc]; rfl)).trans (hf fl t rfl)

lemma cls_ne_fbool (o : Obj) (c : PyType) (hc : o.cls = c) (hne : ¬c = PyType.fbool) :
    ¬o.cls = .fbool := by
  rw [hc]
  exact hne

lemma wf_alloc (st : St) (st1 : St) (ob : Obj) (hw : wfB st = true)
    (hobjs : st1.objs = ob :: st.objs) (hnext : st1.next = st.next + 1)
    (hid : ob.id = st.next) :
    wfHeapB st1.objs st1.next = true ∧ FP st.objs st1.objs ∧
      getObj st1.objs st.next = some ob := by
  have h1 := ((wfB_iff st).mp hw).1
  refine ⟨?_, ?_, ?_⟩
  · rw [hobjs, hnext]
    simp [wfHeapB, hid, h1]
  · rw [hobjs]
    exact fp_cons st.objs st.next ob h1 hid
  · rw [hobjs, getObj_cons, hid, if_pos rfl]

lemma sboolCall_spec (st : St) (w : Bool) (fl : Flavor) (hw : wfB st = true) :
    wfB (sboolCall st w fl).1 = true ∧
      FP st.objs ((sboolCall st w fl).1).objs ∧
      internedAt (sboolCall st w fl).1 (.sb w) ((sboolCall st w fl).2) = true := by
  have hwt := (wfB_iff st).mp hw
  cases w with
  | true =>
    cases hs : st.sbTruthy with
    | some i =>
      obtain ⟨o, hg, hc, hv⟩ := slotObjOk_some _ _ _ _ i hwt.2.1 hs
      have hnb : ∀ oj, getObj st.objs i = some oj → ¬oj.cls = .fbool := by
        intro oj hgj
        rw [hg] at hgj
        cases hgj
        exact cls_ne_fbool o .sbool hc (by intro hx; cases hx)
      have hcall : sboolCall st true fl = ({ st with objs := setFl st.objs i fl }, i) := by
        simp [sboolCall, sboolNew, hs]
      rw [hcall]
      refine ⟨setFl_wf st i fl hw hnb, fp_setFl st.objs i fl hnb, ?_⟩
      refine internedAt_intro _ _ _ { o with flavorAttr := some fl } hs ?_ hc hv
        (fun fl2 t2 hk => by cases hk)
      show getObj (setFl st.objs i fl) i = _
      rw [getObj_setFl, if_pos rfl, hg]
      rfl
    | none =>
      have hcall : sboolCall st true fl =
          ({ st with
              next := st.next + 1,
              objs := setFl (⟨st.next, .sbool, 1, none⟩ :: st.objs) st.next fl,
              sbTruthy := some st.next }, st.next) := by
        simp [sboolCall, sboolNew, hs]
      obtain ⟨hh1, hfp1, hg1⟩ :=
        wf_alloc st
          { st with
              next := st.next + 1,
              objs := ⟨st.next, .sbool, 1, none⟩ :: st.objs,
              sbTruthy := some st.next }
          ⟨st.next, .sbool, 1, none⟩ hw rfl rfl rfl
      have hnb : ∀ oj, getObj (⟨st.next, .sbool, 1, none⟩ :: st.objs) st.next = some oj →
          ¬oj.cls = .fbool := by
        intro oj hgj
        rw [hg1] at hgj
        cases hgj
        intro hx
        cases hx
      have hw1 : wfB
          { st with
              next := st.next + 1,
              objs := ⟨st.next, .sbool, 1, none⟩ :: st.objs,
              sbTruthy := some st.next } = true := by
        rw [wfB_iff]
        refine ⟨hh1, ?_, ?_, ?_, ?_, ?_, ?_⟩
        · exact slotObjOk_of_obj _ _ _ .sbool 1 hg1 rfl rfl
        · exact slotObjOk_fp _ _ _ _ _ hfp1 hwt.2.2.1
        · exact slotObjOk_fp _ _ _ _ _ hfp1 hwt.2.2.2.1
        · exact slotObjOk_fp _ _ _ _ _ hfp1 hwt.2.2.2.2.1
        · exact dictOk_fp _ _ _ _ hfp1 hwt.2.2.2.2.2.1
        · exact dictOk_fp _ _ _ _ hfp1 hwt.2.2.2.2.2.2
      rw [hcall]
      refine ⟨setFl_wf _ st.next fl hw1 hnb,
        fp_trans _ _ _ hfp1 (fp_setFl _ st.next fl hnb), ?_⟩
      refine internedAt_intro _ _ _ ⟨st.next, .sbool, 1, some fl⟩ rfl ?_ rfl rfl
        (fun fl2 t2 hk => by cases hk)
      show getObj (setFl (⟨st.next, .sbool, 1, none⟩ :: st.objs) st.next fl) st.next = _
      rw [getObj_setFl, if_pos rfl, hg1]
      rfl
  | false =>
    cases hs : st.sbFalsy with
    | some i =>
      obtain ⟨o, hg, hc, hv⟩ := slotObjOk_some _ _ _ _ i hwt.2.2.1 hs
      have hnb : ∀ oj, getObj st.objs i = some oj → ¬oj.cls = .fbool := by
        intro oj hgj
        rw [hg] at hgj
        cases hgj
        exact cls_ne_fbool o .sbool hc (by intro hx; cases hx)
      have hcall : sboolCall st false fl = ({ st with objs := setFl st.objs i fl }, i) := by
        simp [sboolCall, sboolNew, hs]
      rw [hcall]
      refine ⟨setFl_wf st i fl hw hnb, fp_setFl st.objs i fl hnb, ?_⟩
      refine internedAt_intro _ _ _ { o with flavorAttr := some fl } hs ?_ hc hv
        (fun fl2 t2 hk => by cases hk)
      show getObj (setFl st.objs i fl) i = _
      rw [getObj_setFl, if_pos rfl, hg]
      rfl
    | none =>
      have hcall : sboolCall st false fl =
          ({ st with
              next := st.next + 1,
              objs := setFl (⟨st.next, .sbool, 0, none⟩ :: st.objs) st.next fl,
              sbFalsy := some st.next }, st.next) := by
        simp [sboolCall, sboolNew, hs]
      obtain ⟨hh1, hfp1, hg1⟩ :=
        wf_alloc st
          { st with
              next := st.next + 1,
              objs := ⟨st.next, .sbool, 0, none⟩ :: st.objs,
              sbFalsy := some st.next }
          ⟨st.next, .sbool, 0, none⟩ hw rfl rfl rfl
      have hnb : ∀ oj, getObj (⟨st.next, .sbool, 0, none⟩ :: st.objs) st.next = some oj →
          ¬oj.cls = .fbool := by
        intro oj hgj
        rw [hg1] at hgj
        cases hgj
        intro hx
        cases hx
      have hw1 : wfB
          { st with
              next := st.next + 1,
              objs := ⟨st.next, .sbool, 0, none⟩ :: st.objs,
              sbFalsy := some st.next } = true := by
        rw [wfB_iff]
        refine ⟨hh1, ?_, ?_, ?_, ?_, ?_, ?_⟩
        · exact slotObjOk_fp _ _ _ _ _ hfp1 hwt.2.1
        · exact slotObjOk_of_obj _ _ _ .sbool 0 hg1 rfl rfl
        · exact slotObjOk_fp _ _ _ _ _ hfp1 hwt.2.2.2.1
        · exact slotObjOk_fp _ _ _ _ _ hfp1 hwt.2.2.2.2.1
        · exact dictOk_fp _ _ _ _ hfp1 hwt.2.2.2.2.2.1
        · exact dictOk_fp _ _ _ _ hfp1 hwt.2.2.2.2.2.2
      rw [hcall]
      refine ⟨setFl_wf _ st.next fl hw1 hnb,
        fp_trans _ _ _ hfp1 (fp_setFl _ st.next fl hnb), ?_⟩
      refine internedAt_intro _ _ _ ⟨st.next, .sbool, 0, some fl⟩ rfl ?_ rfl rfl
        (fun fl2 t2 hk => by cases hk)
      show getObj (setFl (⟨st.next, .sbool, 0, none⟩ :: st.objs) st.next fl) st.next = _
      rw [getObj_setFl, if_pos rfl, hg1]
      rfl

lemma fp_cons_setFl (l : List Obj) (n : Nat) (ob : Obj) (fl : Flavor)
    (hw : wfHeapB l n = true) (hid : ob.id = n) : FP l (setFl (ob :: l) n fl) := by
  intro i o h
  have hlt : o.id < n := heapLt l n i o hw h
  have hoi : o.id = i := getObj_id l i o h
  have hin : ¬i = n := by omega
  have hbi : ¬ob.id = i := by omega
  refine ⟨o, ?_, rfl, rfl, fun _ => rfl⟩
  rw [getObj_setFl, if_neg hin, getObj_cons, if_neg hbi]
  exact h

lemma t_boolCall_spec (st : St) (w : Bool) (fl : Flavor) (hw : wfB st = true) :
    wfB (t_boolCall st w fl).1 = true ∧
      FP st.objs ((t_boolCall st w fl).1).objs ∧
      internedAt (t_boolCall st w fl).1 .tb ((t_boolCall st w fl).2) = true := by
  have hwt := (wfB_iff st).mp hw
  cases hs : st.tbSlot with
  | some i =>
    obtain ⟨o, hg, hc, hv⟩ := slotObjOk_some _ _ _ _ i hwt.2.2.2.1 hs
    have hnb : ∀ oj, getObj st.objs i = some oj → ¬oj.cls = .fbool := by
      intro oj hgj
      rw [hg] at hgj
      cases hgj
      exact cls_ne_fbool o .t_bool hc (by intro hx; cases hx)
    have hcall : t_boolCall st w fl = ({ st with objs := setFl st.objs i fl }, i) := by
      simp [t_boolCall, t_boolNew, hs]
    rw [hcall]
    refine ⟨setFl_wf st i fl hw hnb, fp_setFl st.objs i fl hnb, ?_⟩
    refine internedAt_intro _ _ _ { o with flavorAttr := some fl } hs ?_ hc hv
      (fun fl2 t2 hk => by cases hk)
    show getObj (setFl st.objs i fl) i = _
    rw [getObj_setFl, if_pos rfl, hg]
    rfl
  | none =>
    have hcall : t_boolCall st w fl =
        ({ st with
            next := st.next + 1,
            objs := setFl (⟨st.next, .t_bool, 1, none⟩ :: st.objs) st.next fl,
            tbSlot := some st.next }, st.next) := by
      simp [t_boolCall, t_boolNew, hs]
    obtain ⟨hh1, hfp1, hg1⟩ :=
      wf_alloc st
        { st with
            next := st.next + 1,
            objs := ⟨st.next, .t_bool, 1, none⟩ :: st.objs,
            tbSlot := some st.next }
        ⟨st.next, .t_bool, 1, none⟩ hw rfl rfl rfl
    have hnb : ∀ oj, getObj (⟨st.next, .t_bool, 1, none⟩ :: st.objs) st.next = some oj →
        ¬oj.cls = .fbool := by
      intro oj hgj
      rw [hg1] at hgj
      cases hgj
      intro hx
      cases hx
    have hw1 : wfB
        { st with
            next := st.next + 1,
            objs := ⟨st.next, .t_bool, 1, none⟩ :: st.objs,
            tbSlot := some st.next } = true := by
      rw [wfB_iff]
      refine ⟨hh1, ?_, ?_, ?_, ?_, ?_, ?_⟩
      · exact slotObjOk_fp _ _ _ _ _ hfp1 hwt.2.1
      · exact slotObjOk_fp _ _ _ _ _ hfp1 hwt.2.2.1
      · exact slotObjOk_of_obj _ _ _ .t_bool 1 hg1 rfl rfl
      · exact slotObjOk_fp _ _ _ _ _ hfp1 hwt.2.2.2.2.1
      · exact dictOk_fp _ _ _ _ hfp1 hwt.2.2.2.2.2.1
      · exact dictOk_fp _ _ _ _ hfp1 hwt.2.2.2.2.2.2
    rw [hcall]
    refine ⟨setFl_wf _ st.next fl hw1 hnb,
      fp_trans _ _ _ hfp1 (fp_setFl _ st.next fl hnb), ?_⟩
    refine internedAt_intro _ _ _ ⟨st.next, .t_bool, 1, some fl⟩ rfl ?_ rfl rfl
      (fun fl2 t2 hk => by cases hk)
    show getObj (setFl (⟨st.next, .t_bool, 1, none⟩ :: st.objs) st.next fl) st.next = _
    rw [getObj_setFl, if_pos rfl, hg1]
    rfl

lemma f_boolCall_spec (st : St) (w : Bool) (fl : Flavor) (hw : wfB st = true) :
    wfB (f_boolCall st w fl).1 = true ∧
      FP st.objs ((f_boolCall st w fl).1).objs ∧
      internedAt (f_boolCall st w fl).1 .fB ((f_boolCall st w fl).2) = true := by
  have hwt := (wfB_iff st).mp hw
  cases hs : st.fbSlot with
  | some i =>
    obtain ⟨o, hg, hc, hv⟩ := slotObjOk_some _ _ _ _ i hwt.2.2.2.2.1 hs
    have hnb : ∀ oj, getObj st.objs i = some oj → ¬oj.cls = .fbool := by
      intro oj hgj
      rw [hg] at hgj
      cases hgj
      exact cls_ne_fbool o .f_bool hc (by intro hx; cases hx)
    have hcall : f_boolCall st w fl = ({ st with objs := setFl st.objs i fl }, i) := by
      simp [f_boolCall, f_boolNew, hs]
    rw [hcall]
    refine ⟨setFl_wf st i fl hw hnb, fp_setFl st.objs i fl hnb, ?_⟩
    refine internedAt_intro _ _ _ { o with flavorAttr := some fl } hs ?_ hc hv
      (fun fl2 t2 hk => by cases hk)
    show getObj (setFl st.objs i fl) i = _
    rw [getObj_setFl, if_pos rfl, hg]
    rfl
  | none =>
    have hcall : f_boolCall st w fl =
        ({ st with
            next := st.next + 1,
            objs := setFl (⟨st.next, .f_bool, 0, none⟩ :: st.objs) st.next fl,
            fbSlot := some st.next }, st.next) := by
      simp [f_boolCall, f_boolNew, hs]
    obtain ⟨hh1, hfp1, hg1⟩ :=
      wf_alloc st
        { st with
            next := st.next + 1,
            objs := ⟨st.next, .f_bool, 0, none⟩ :: st.objs,
            fbSlot := some st.next }
        ⟨st.next, .f_bool, 0, none⟩ hw rfl rfl rfl
    have hnb : ∀ oj, getObj (⟨st.next, .f_bool, 0, none⟩ :: st.objs) st.next = some oj →
        ¬oj.cls = .fbool := by
      intro oj hgj
      rw [hg1] at hgj
      cases hgj
      intro hx
      cases hx
    have hw1 : wfB
        { st with
            next := st.next + 1,
            objs := ⟨st.next, .f_bool, 0, none⟩ :: st.objs,
            fbSlot := some st.next } = true := by
      rw [wfB_iff]
      refine ⟨hh1, ?_, ?_, ?_, ?_, ?_, ?_⟩
      · exact slotObjOk_fp _ _ _ _ _ hfp1 hwt.2.1
      · exact slotObjOk_fp _ _ _ _ _ hfp1 hwt.2.2.1
      · exact slotObjOk_fp _ _ _ _ _ hfp1 hwt.2.2.2.1
      · exact slotObjOk_of_obj _ _ _ .f_bool 0 hg1 rfl rfl
      · exact dictOk_fp _ _ _ _ hfp1 hwt.2.2.2.2.2.1
      · exact dictOk_fp _ _ _ _ hfp1 hwt.2.2.2.2.2.2
    rw [hcall]
    refine ⟨setFl_wf _ st.next fl hw1 hnb,
      fp_trans _ _ _ hfp1 (fp_setFl _ st.next fl hnb), ?_⟩
    refine internedAt_intro _ _ _ ⟨st.next, .f_bool, 0, some fl⟩ rfl ?_ rfl rfl
      (fun fl2 t2 hk => by cases hk)
    show getObj (setFl (⟨st.next, .f_bool, 0, none⟩ :: st.objs) st.next fl) st.next = _
    rw [getObj_setFl, if_pos rfl, hg1]
    rfl

lemma fboolCall_spec (st : St) (fl : Flavor) (w : Bool) (hw : wfB st = true) :
    wfB (fboolCall st fl w).1 = true ∧
      FP st.objs ((fboolCall st fl w).1).objs ∧
      internedAt (fboolCall st fl w).1 (.fb fl w) ((fboolCall st fl w).2) = true := by
  have hwt := (wfB_iff st).mp hw
  cases w with
  | true =>
    cases hs : dlook st.fbTruthy fl with
    | some i =>
      obtain ⟨o, hg, hc, hv, hfa⟩ :=
        dlook_dictOk st.objs st.fbTruthy 1 fl i hwt.2.2.2.2.2.1 hs
      have hcall : fboolCall st fl true = (st, i) := by
        simp [fboolCall, fboolNew, hs, hg, hfa]
      rw [hcall]
      refine ⟨hw, fp_refl st.objs, ?_⟩
      exact internedAt_intro st _ i o hs hg hc hv
        (fun fl2 t2 hk => by cases hk; exact hfa)
    | none =>
      have hcall : fboolCall st fl true =
          ({ st with
              next := st.next + 1,
              objs := setFl (⟨st.next, .fbool, 1, none⟩ :: st.objs) st.next fl,
              fbTruthy := (fl, st.next) :: st.fbTruthy }, st.next) := by
        simp [fboolCall, fboolNew, hs, getObj_cons]
      obtain ⟨hh1, hfp1, hg1⟩ :=
        wf_alloc st
          { st with
              next := st.next + 1,
              objs := ⟨st.next, .fbool, 1, none⟩ :: st.objs,
              fbTruthy := (fl, st.next) :: st.fbTruthy }
          ⟨st.next, .fbool, 1, none⟩ hw rfl rfl rfl
      have hfp2 : FP st.objs (setFl (⟨st.next, .fbool, 1, none⟩ :: st.objs) st.next fl) :=
        fp_cons_setFl st.objs st.next ⟨st.next, .fbool, 1, none⟩ fl hwt.1 rfl
      have hg2 : getObj (setFl (⟨st.next, .fbool, 1, none⟩ :: st.objs) st.next fl) st.next =
          some ⟨st.next, .fbool, 1, some fl⟩ := by
        rw [getObj_setFl, if_pos rfl, hg1]
        rfl
      rw [hcall]
      refine ⟨?_, hfp2, ?_⟩
      · rw [wfB_iff]
        refine ⟨?_, ?_, ?_, ?_, ?_, ?_, ?_⟩
        · show wfHeapB (setFl (⟨st.next, .fbool, 1, none⟩ :: st.objs) st.next fl)
            (st.next + 1) = true
          rw [wfHeapB_setFl]
          exact hh1
        · exact slotObjOk_fp _ _ _ _ _ hfp2 hwt.2.1
        · exact slotObjOk_fp _ _ _ _ _ hfp2 hwt.2.2.1
        · exact slotObjOk_fp _ _ _ _ _ hfp2 hwt.2.2.2.1
        · exact slotObjOk_fp _ _ _ _ _ hfp2 hwt.2.2.2.2.1
        · show dictOk _ ((fl, st.next) :: st.fbTruthy) 1 = true
          rw [dictOk_cons_eq, Bool.and_eq_true]
          exact ⟨by rw [hg2]; simp, dictOk_fp _ _ _ _ hfp2 hwt.2.2.2.2.2.1⟩
        · exact dictOk_fp _ _ _ _ hfp2 hwt.2.2.2.2.2.2
      · refine internedAt_intro _ _ _ ⟨st.next, .fbool, 1, some fl⟩ ?_ hg2 rfl rfl
          (fun fl2 t2 hk => by cases hk; rfl)
        show dlook ((fl, st.next) :: st.fbTruthy) fl = some st.next
        rw [dlook_cons, if_pos rfl]
  | false =>
    cases hs : dlook st.fbFalsy fl with
    | some i =>
      obtain ⟨o, hg, hc, hv, hfa⟩ :=
        dlook_dictOk st.objs st.fbFalsy 0 fl i hwt.2.2.2.2.2.2 hs
      have hcall : fboolCall st fl false = (st, i) := by
        simp [fboolCall, fboolNew, hs, hg, hfa]
      rw [hcall]
      refine ⟨hw, fp_refl st.objs, ?_⟩
      exact internedAt_intro st _ i o hs hg hc hv
        (fun fl2 t2 hk => by cases hk; exact hfa)
    | none =>
      have hcall : fboolCall st fl false =
          ({ st with
              next := st.next + 1,
              objs := setFl (⟨st.next, .fbool, 0, none⟩ :: st.objs) st.next fl,
              fbFalsy := (fl, st.next) :: st.fbFalsy }, st.next) := by
        simp [fboolCall, fboolNew, hs, getObj_cons]
      obtain ⟨hh1, hfp1, hg1⟩ :=
        wf_alloc st
          { st with
              next := st.next + 1,
              objs := ⟨st.next, .fbool, 0, none⟩ :: st.objs,
              fbFalsy := (fl, st.next) :: st.fbFalsy }
          ⟨st.next, .fbool, 0, none⟩ hw rfl rfl rfl
      have hfp2 : FP st.objs (setFl (⟨st.next, .fbool, 0, none⟩ :: st.objs) st.next fl) :=
        fp_cons_setFl st.objs st.next ⟨st.next, .fbool, 0, none⟩ fl hwt.1 rfl
      have hg2 : getObj (setFl (⟨st.next, .fbool, 0, none⟩ :: st.objs) st.next fl) st.next =
          some ⟨st.next, .fbool, 0, some fl⟩ := by
        rw [getObj_setFl, if_pos rfl, hg1]
        rfl
      rw [hcall]
      refine ⟨?_, hfp2, ?_⟩
      · rw [wfB_iff]
        refine ⟨?_, ?_, ?_, ?_, ?_, ?_, ?_⟩
        · show wfHeapB (setFl (⟨st.next, .fbool, 0, none⟩ :: st.objs) st.next fl)
            (st.next + 1) = true
          rw [wfHeapB_setFl]
          exact hh1
        · exact slotObjOk_fp _ _ _ _ _ hfp2 hwt.2.1
        · exact slotObjOk_fp _ _ _ _ _ hfp2 hwt.2.2.1
        · exact slotObjOk_fp _ _ _ _ _ hfp2 hwt.2.2.2.1
        · exact slotObjOk_fp _ _ _ _ _ hfp2 hwt.2.2.2.2.1
        · exact dictOk_fp _ _ _ _ hfp2 hwt.2.2.2.2.2.1
        · show dictOk _ ((fl, st.next) :: st.fbFalsy) 0 = true
          rw [dictOk_cons_eq, Bool.and_eq_true]
          exact ⟨by rw [hg2]; simp, dictOk_fp _ _ _ _ hfp2 hwt.2.2.2.2.2.2⟩
      · refine internedAt_intro _ _ _ ⟨st.next, .fbool, 0, some fl⟩ ?_ hg2 rfl rfl
          (fun fl2 t2 hk => by cases hk; rfl)
        show dlook ((fl, st.next) :: st.fbFalsy) fl = some st.next
        rw [dlook_cons, if_pos rfl]

lemma tf_boolCall_spec (st : St) (w : Bool) (fl : Flavor) (hw : wfB st = true) :
    wfB (tf_boolCall st w fl).1 = true ∧
      FP st.objs ((tf_boolCall st w fl).1).objs ∧
      internedAt (tf_boolCall st w fl).1 (if w then Key.tb else Key.fB)
        ((tf_boolCall st w fl).2) = true := by
  cases w with
  | true =>
    obtain ⟨hw1, hfp1, hi1⟩ := t_boolCall_spec st false .fno hw
    obtain ⟨-, o, hg, hc, hv, -⟩ := internedAt_elim _ _ _ hi1
    have hnb : ∀ oj,
        getObj ((t_boolCall st false .fno).1).objs ((t_boolCall st false .fno).2) =
          some oj → ¬oj.cls = .fbool := by
      intro oj hgj
      rw [hg] at hgj
      cases hgj
      exact cls_ne_fbool o .t_bool hc (by intro hx; cases hx)
    refine ⟨setFl_wf _ _ fl hw1 hnb, fp_trans _ _ _ hfp1 (fp_setFl _ _ fl hnb), ?_⟩
    refine internedAt_of_fp (t_boolCall st false .fno).1 _ .tb _ hi1 ?_
      (fp_setFl _ _ fl hnb)
    show ((t_boolCall st false .fno).1).tbSlot = _
    exact (internedAt_elim _ _ _ hi1).1
  | false =>
    obtain ⟨hw1, hfp1, hi1⟩ := f_boolCall_spec st false .fno hw
    obtain ⟨-, o, hg, hc, hv, -⟩ := internedAt_elim _ _ _ hi1
    have hnb : ∀ oj,
        getObj ((f_boolCall st false .fno).1).objs ((f_boolCall st false .fno).2) =
          some oj → ¬oj.cls = .fbool := by
      intro oj hgj
      rw [hg] at hgj
      cases hgj
      exact cls_ne_fbool o .f_bool hc (by intro hx; cases hx)
    refine ⟨setFl_wf _ _ fl hw1 hnb, fp_trans _ _ _ hfp1 (fp_setFl _ _ fl hnb), ?_⟩
    refine internedAt_of_fp (f_boolCall st false .fno).1 _ .fB _ hi1 ?_
      (fp_setFl _ _ fl hnb)
    show ((f_boolCall st false .fno).1).fbSlot = _
    exact (internedAt_elim _ _ _ hi1).1

lemma run_spec (st : St) (c : Call) (hw : wfB st = true) :
    wfB (run st c).1 = true ∧ FP st.objs ((run st c).1).objs ∧
      internedAt (run st c).1 (keyOf c) ((run st c).2) = true := by
  cases c with
  | sb w fl => exact sboolCall_spec st w fl hw
  | fb fl w => exact fboolCall_spec st fl w hw
  | tb w fl => exact t_boolCall_spec st w fl hw
  | fB w fl => exact f_boolCall_spec st w fl hw
  | tf w fl => exact tf_boolCall_spec st w fl hw

lemma wf_init : wfB initSt = true := rfl

lemma wf_runTrace (st : St) (cs : List Call) (hw : wfB st = true) :
    wfB (runTrace st cs).1 = true := by
  induction cs generalizing st with
  | nil => exact hw
  | cons c r ih =>
    rw [runTrace_cons]
    exact ih (run st c).1 (run_spec st c hw).1

lemma interned_persist (st : St) (c : Call) (k : Key) (i : Nat)
    (hw : wfB st = true) (hi : internedAt st k i = true) :
    internedAt (run st c).1 k i = true :=
  internedAt_of_fp st (run st c).1 k i hi
    (slot_persist st c k i (internedAt_elim st k i hi).1) (run_spec st c hw).2.1

lemma interned_runTrace (st : St) (cs : List Call) (k : Key) (i : Nat)
    (hw : wfB st = true) (hi : internedAt st k i = true) :
    internedAt (runTrace st cs).1 k i = true := by
  induction cs generalizing st with
  | nil => exact hi
  | cons c r ih =>
    rw [runTrace_cons]
    exact ih (run st c).1 (run_spec st c hw).1 (interned_persist st c k i hw hi)

/-- The constructor call performed by `__invert__` on a heap object, by its
exact class: `SBool.__invert__` executes `type(self)(False)` /
`type(self)(True)` (`subtypable.py` lines 117-120); `FBool.__invert__`
executes `FBool(self._flavor, False)` / `FBool(self._flavor, True)`
(`flavored.py` lines 96-99, reading the stored `_flavor` attribute);
`TF_Bool.__invert__` executes `F_Bool()` / `T_Bool()` (`true_false.py`
lines 64-67). -/
def invCallFor (o : Obj) : Option Call :=
  match o.cls with
  | .sbool => some (.sb (!(o.ival != 0)) .fno)
  | .fbool =>
    match o.flavorAttr with
    | some fl => some (.fb fl (!(o.ival != 0)))
    | none => none
  | .tf_bool => some (if o.ival != 0 then .fB false .fno else .tb false .fno)
  | .t_bool => some (if o.ival != 0 then .fB false .fno else .tb false .fno)
  | .f_bool => some (if o.ival != 0 then .fB false .fno else .tb false .fno)
  | _ => none

/-- Apply the `~` operator to the object with identity `i`: look the object
up, run the constructor call its `__invert__` makes, and return the new
state and the returned object's identity. -/
def obj_invert (st : St) (i : Nat) : Option (St × Nat) :=
  match getObj st.objs i with
  | none => none
  | some o =>
    match invCallFor o with
    | none => none
    | some c => some (run st c)

/-- Apply `~` twice, returning the final object identity. -/
def invTwice (st : St) (i : Nat) : Option Nat :=
  match obj_invert st i with
  | none => none
  | some p =>
    match obj_invert p.1 p.2 with
    | none => none
    | some q => some q.2

/-- The cache key of the opposite-truth singleton of the same subtype (and
same flavor). -/
def kFlip : Key → Key
  | .sb t => .sb (!t)
  | .fb fl t => .fb fl (!t)
  | .tb => .fB
  | .fB => .tb

lemma kFlip_kFlip (k : Key) : kFlip (kFlip k) = k := by
  cases k <;> simp [kFlip]

lemma invCall_key (k : Key) (o : Obj) (hc : o.cls = keyCls k)
    (hv : o.ival = keyIval k)
    (hf : ∀ fl t, k = .fb fl t → o.flavorAttr = some fl) :
    ∃ c, invCallFor o = some c ∧ keyOf c = kFlip k := by
  cases k with
  | sb t =>
    refine ⟨.sb (!t) .fno, ?_, rfl⟩
    cases t <;> simp [invCallFor, hc, hv, keyCls, keyIval]
  | fb fl t =>
    refine ⟨.fb fl (!t), ?_, rfl⟩
    have hfa := hf fl t rfl
    cases t <;> simp [invCallFor, hc, hv, hfa, keyCls, keyIval]
  | tb =>
    refine ⟨.fB false .fno, ?_, rfl⟩
    simp [invCallFor, hc, hv, keyCls, keyIval]
  | fB =>
    refine ⟨.tb false .fno, ?_, rfl⟩
    simp [invCallFor, hc, hv, keyCls, keyIval]

lemma inv_of_interned (st : St) (k : Key) (i : Nat) (hw : wfB st = true)
    (hi : internedAt st k i = true) : invTwice st i = some i := by
  obtain ⟨hs, o, hg, hc, hv, hf⟩ := internedAt_elim st k i hi
  obtain ⟨c1, hic1, hk1⟩ := invCall_key k o hc hv hf
  have h1 : obj_invert st i = some (run st c1) := by
    simp [obj_invert, hg, hic1]
  obtain ⟨hw2, hfp2, hi2⟩ := run_spec st c1 hw
  have hsx : slotVal (run st c1).1 k = some i := slot_persist st c1 k i hs
  have hix : internedAt (run st c1).1 k i = true :=
    internedAt_of_fp st (run st c1).1 k i hi hsx hfp2
  rw [hk1] at hi2
  obtain ⟨hs2, o2, hg2, hc2, hv2, hf2⟩ := internedAt_elim _ _ _ hi2
  obtain ⟨c2, hic2, hk2⟩ := invCall_key (kFlip k) o2 hc2 hv2 hf2
  have h2 : obj_invert (run st c1).1 (run st c1).2 =
      some (run (run st c1).1 c2) := by
    simp [obj_invert, hg2, hic2]
  have hret : (run (run st c1).1 c2).2 = i := by
    apply run_cached
    rw [hk2, kFlip_kFlip]
    exact (internedAt_elim _ _ _ hix).1
  simp [invTwice, h1, h2, hret]

lemma same_key_same_id (st0 : St) (c : Call) (ds : List Call) (c2 : Call)
    (h : keyOf c2 = keyOf c) :
    (run (runTrace (run st0 c).1 ds).1 c2).2 = (run st0 c).2 := by
  apply run_cached
  rw [h]
  exact slot_persist_trace _ ds _ _ (run_fills st0 c)

/-- The exact subtype and (for `FBool`) the flavor a cache key belongs to. -/
def classFl : Key → PyType × Option Flavor
  | .sb _ => (.sbool, none)
  | .fb fl _ => (.fbool, some fl)
  | .tb => (.t_bool, none)
  | .fB => (.f_bool, none)

/-- The truth value of a cache key. -/
def keyTruth : Key → Bool
  | .sb t => t
  | .fb _ t => t
  | .tb => true
  | .fB => false

lemma key_ext (k k2 : Key) (h1 : classFl k = classFl k2)
    (h2 : keyTruth k = keyTruth k2) : k = k2 := by
  cases k <;> cases k2 <;> simp_all [classFl, keyTruth]

/-- C6: singleton interning.  First part: in any state, after any further
interleaved constructor calls, a constructor call resolving to the same
cache key (same exact subtype, same truth, and, for `FBool`, same flavor)
returns the identical object (the same heap identity).  Second part: among
any three constructor calls of the same exact subtype and flavor, at most
two distinct objects are returned (one per truth value). -/
theorem c6_singleton_interning :
    (∀ (st0 : St) (c : Call) (ds : List Call) (c2 : Call), keyOf c2 = keyOf c →
        (run (runTrace (run st0 c).1 ds).1 c2).2 = (run st0 c).2) ∧
      (∀ (st0 : St) (c1 : Call) (ds1 : List Call) (c2 : Call) (ds2 : List Call)
          (c3 : Call),
        classFl (keyOf c1) = classFl (keyOf c2) →
        classFl (keyOf c2) = classFl (keyOf c3) →
        (run st0 c1).2 = (run (runTrace (run st0 c1).1 ds1).1 c2).2 ∨
          (run st0 c1).2 =
            (run (runTrace (run (runTrace (run st0 c1).1 ds1).1 c2).1 ds2).1 c3).2 ∨
          (run (runTrace (run st0 c1).1 ds1).1 c2).2 =
            (run (runTrace (run (runTrace (run st0 c1).1 ds1).1 c2).1 ds2).1 c3).2) := by
  constructor
  · exact fun st0 c ds c2 h => same_key_same_id st0 c ds c2 h
  · intro st0 c1 ds1 c2 ds2 c3 h1 h2
    by_cases h12 : keyTruth (keyOf c1) = keyTruth (keyOf c2)
    · exact Or.inl (same_key_same_id st0 c1 ds1 c2
        (key_ext _ _ h1.symm h12.symm)).symm
    · by_cases h13 : keyTruth (keyOf c1) = keyTruth (keyOf c3)
      · refine Or.inr (Or.inl ?_)
        have hst : (runTrace (run (runTrace (run st0 c1).1 ds1).1 c2).1 ds2).1 =
            (runTrace (run st0 c1).1 (ds1 ++ c2 :: ds2)).1 := by
          rw [runTrace_append_fst, runTrace_cons]
        rw [hst]
        exact (same_key_same_id st0 c1 (ds1 ++ c2 :: ds2) c3
          (key_ext _ _ (h1.trans h2).symm h13.symm)).symm
      · have h23 : keyTruth (keyOf c2) = keyTruth (keyOf c3) := by
          have : ∀ a b c : Bool, ¬a = b → ¬a = c → b = c := by decide
          exact this _ _ _ h12 h13
        exact Or.inr (Or.inr (same_key_same_id _ c2 ds2 c3
          (key_ext _ _ h2.symm h23.symm)).symm)

/-- C6 witness: the interning theorem applied to concrete traces - two
`SBool(True, ...)` calls separated by an `FBool` call return the same
identity, and three closed-pair constructions return at most two distinct
identities. -/
theorem c6_singleton_interning_witness :
    (run (runTrace (run initSt (.sb true (.fstr "a"))).1 [.fb (.fint 1) true]).1
        (.sb true (.fstr "b"))).2 = (run initSt (.sb true (.fstr "a"))).2 ∧
      ((run initSt (.tb true .fno)).2 =
          (run (runTrace (run initSt (.tb true .fno)).1 []).1 (.tb false (.fstr "c"))).2 ∨
        (run initSt (.tb true .fno)).2 =
          (run (runTrace (run (runTrace (run initSt (.tb true .fno)).1 []).1
              (.tb false (.fstr "c"))).1 []).1 (.tf true .fno)).2 ∨
        (run (runTrace (run initSt (.tb true .fno)).1 []).1 (.tb false (.fstr "c"))).2 =
          (run (runTrace (run (runTrace (run initSt (.tb true .fno)).1 []).1
              (.tb false (.fstr "c"))).1 []).1 (.tf true .fno)).2) :=
  ⟨c6_singleton_interning.1 initSt (.sb true (.fstr "a")) [.fb (.fint 1) true]
      (.sb true (.fstr "b")) rfl,
    c6_singleton_interning.2 initSt (.tb true .fno) [] (.tb false (.fstr "c")) []
      (.tf true .fno) rfl rfl⟩

/-- C7 counterexample: the cached `SBool` truthy singleton's stored
`_flavor` attribute is mutated by a later constructor call with a different
flavor argument - `SBool.__init__` runs on each call, including cache hits,
and reassigns `self._flavor` unconditionally.  The second call returns the
same object, whose stored flavor has changed from `'a'` to `'b'`. -/
theorem c7_flavor_mutated :
    (sboolCall (sboolCall initSt true (.fstr "a")).1 true (.fstr "b")).2 =
        (sboolCall initSt true (.fstr "a")).2 ∧
      getObj ((sboolCall initSt true (.fstr "a")).1).objs
          (sboolCall initSt true (.fstr "a")).2 =
        some ⟨0, .sbool, 1, some (.fstr "a")⟩ ∧
      getObj ((sboolCall (sboolCall initSt true (.fstr "a")).1 true (.fstr "b")).1).objs
          (sboolCall initSt true (.fstr "a")).2 =
        some ⟨0, .sbool, 1, some (.fstr "b")⟩ :=
  ⟨rfl, rfl, rfl⟩

/-- C7 amended: what is immutable after creation is the truth payload and
the exact class of every object, and the stored `_flavor` of every
`FBool`-classed object (its `__init__` assigns the flavor only when absent);
the `_flavor` attribute of `SBool` and closed-pair singletons, by contrast,
is reassigned by every constructor call that returns them (see the C7
counterexample). -/
theorem c7_amended (st : St) (c : Call) (i : Nat) (o : Obj)
    (hw : wfB st = true) (hg : getObj st.objs i = some o) :
    ∃ o2, getObj ((run st c).1).objs i = some o2 ∧ o2.cls = o.cls ∧
      o2.ival = o.ival ∧ (o.cls = .fbool → o2.flavorAttr = o.flavorAttr) :=
  (run_spec st c hw).2.1 i o hg

/-- C7 amended witness: a concrete application - in the state reached by
one `FBool('x', True)` call, running `SBool(True, 'b')` preserves class,
value and flavor of the existing `FBool` object. -/
theorem c7_amended_witness :
    wfB (fboolCall initSt (.fstr "x") true).1 = true ∧
      getObj ((fboolCall initSt (.fstr "x") true).1).objs 0 =
        some ⟨0, .fbool, 1, some (.fstr "x")⟩ ∧
      ∃ o2, getObj ((run (fboolCall initSt (.fstr "x") true).1
            (.sb true (.fstr "b"))).1).objs 0 = some o2 ∧
        o2.cls = Obj.cls ⟨0, .fbool, 1, some (.fstr "x")⟩ ∧
        o2.ival = Obj.ival ⟨0, .fbool, 1, some (.fstr "x")⟩ ∧
        (Obj.cls ⟨0, .fbool, 1, some (.fstr "x")⟩ = .fbool →
          o2.flavorAttr = Obj.flavorAttr ⟨0, .fbool, 1, some (.fstr "x")⟩) :=
  ⟨rfl, rfl, c7_amended (fboolCall initSt (.fstr "x") true).1 (.sb true (.fstr "b"))
    0 ⟨0, .fbool, 1, some (.fstr "x")⟩ rfl rfl⟩

/-- C8: invert is an involution on every subtype, under object identity
(which implies value equality): for every object returned by a constructor
call in any trace from the initial state, and after any further constructor
calls, applying `~` twice returns the identical object. -/
theorem c8_invert_involution (cs : List Call) (c : Call) (ds : List Call) :
    invTwice (runTrace (run (runTrace initSt cs).1 c).1 ds).1
        ((run (runTrace initSt cs).1 c).2) =
      some ((run (runTrace initSt cs).1 c).2) := by
  have hw1 := wf_runTrace initSt cs wf_init
  obtain ⟨hw2, -, hi2⟩ := run_spec _ c hw1
  have hw3 := wf_runTrace _ ds hw2
  have hi3 := interned_runTrace _ ds _ _ hw2 hi2
  exact inv_of_interned _ (keyOf c) _ hw3 hi3

/-- C9: the closed truth/falsehood pair.  `T_Bool(...)` returns the same
identity regardless of its arguments, and in a well-formed state that object
is the truthy `T_Bool` singleton; dually for `F_Bool(...)`; the dispatching
constructor `TF_Bool(witness, flavor)` returns exactly the `T_Bool()` or
`F_Bool()` singleton according to the witness; and every `&`/`|`/`^`
combination of two closed-pair members returns a closed-pair member (never
any other type) with the standard eager truth. -/
theorem c9_closed_pair_contract :
    (∀ (st : St) (w1 : Bool) (fl1 : Flavor) (w2 : Bool) (fl2 : Flavor),
        (t_boolCall st w1 fl1).2 = (t_boolCall st w2 fl2).2 ∧
          (f_boolCall st w1 fl1).2 = (f_boolCall st w2 fl2).2) ∧
      (∀ (st : St) (w : Bool) (fl : Flavor), wfB st = true →
        (∃ o, getObj ((t_boolCall st w fl).1).objs (t_boolCall st w fl).2 = some o ∧
            o.cls = .t_bool ∧ o.ival = 1) ∧
          (∃ o, getObj ((f_boolCall st w fl).1).objs (f_boolCall st w fl).2 = some o ∧
            o.cls = .f_bool ∧ o.ival = 0)) ∧
      (∀ (st : St) (w : Bool) (fl : Flavor),
        (tf_boolCall st w fl).2 =
          if w then (t_boolCall st false .fno).2 else (f_boolCall st false .fno).2) ∧
      (∀ (fuel : Nat) (op : Op) (x y : Bool),
        dispatch (fuel + 1) op (.hv (tfOf x)) (.hv (tfOf y)) =
          some (.ok (.hv (tfOf (Op.table op x y))))) := by
  refine ⟨fun st w1 fl1 w2 fl2 => ⟨rfl, rfl⟩, ?_, ?_, ?_⟩
  · intro st w fl hw
    constructor
    · obtain ⟨-, o, hg, hc, hv, -⟩ :=
        internedAt_elim _ _ _ (t_boolCall_spec st w fl hw).2.2
      exact ⟨o, hg, hc, hv⟩
    · obtain ⟨-, o, hg, hc, hv, -⟩ :=
        internedAt_elim _ _ _ (f_boolCall_spec st w fl hw).2.2
      exact ⟨o, hg, hc, hv⟩
  · intro st w fl
    cases w <;> rfl
  · intro fuel op x y
    cases op <;> cases x <;> cases y <;> rfl

/-- C9 witness: the contract applied at a concrete state and inputs. -/
theorem c9_closed_pair_contract_witness :
    wfB initSt = true ∧
      (∃ o, getObj ((t_boolCall initSt true (.fstr "q")).1).objs
          (t_boolCall initSt true (.fstr "q")).2 = some o ∧
          o.cls = .t_bool ∧ o.ival = 1) ∧
      dispatch 3 .xor (.hv (tfOf true)) (.hv (tfOf true)) =
        some (.ok (.hv (tfOf (Op.table .xor true true)))) :=
  ⟨rfl, (c9_closed_pair_contract.2.1 initSt true (.fstr "q") rfl).1,
    c9_closed_pair_contract.2.2.2 2 .xor true true⟩

/-- Calling `SBool()` with no arguments: the `witness` parameter defaults to
`False` and the `flavor` parameter defaults to the `NoValue` sentinel
(`subtypable.py` line 78). -/
def sboolNoArgs (st : St) : St × Nat := sboolCall st false .fno

/-- C10: in every state, calling `SBool()` and then `SBool(False)` returns
the identical (falsy) singleton object - the witness parameter defaults to
falsy. -/
theorem c10_default_witness_falsy (st : St) :
    (sboolCall (sboolNoArgs st).1 false .fno).2 = (sboolNoArgs st).2 := by
  apply run_cached (sboolNoArgs st).1 (.sb false .fno)
  exact run_fills st (.sb false .fno)

end PfpBooleans
